import Mathlib

/-!
Verification of the HAICOR-Explore core: the trie-based concept extractor
(`src/haicor/processes/extractor.py`) and the ConceptNet knowledge store
(`src/haicor/knowledge/store.py`, `src/haicor/knowledge/types.py`).
Every definition is a shallow embedding of the corresponding Python
function; theorems at the end settle the specification claims.
-/

set_option autoImplicit false

namespace Haicor

/-! ## Tokenizer

Python `str.split()` with no argument: split on runs of whitespace and
drop empty pieces. Used by `ConceptExtractor.__init__` as `i.split()`.
-/

/-- Accumulating worker for `splitWs`: `acc` holds the characters of the
current (reversed) word. -/
def splitWsAux : List Char → List Char → List String
  | [], acc => if acc = [] then [] else [String.mk acc.reverse]
  | c :: rest, acc =>
      if c.isWhitespace then
        if acc = [] then splitWsAux rest []
        else String.mk acc.reverse :: splitWsAux rest []
      else splitWsAux rest (c :: acc)

/-- Python `s.split()`: whitespace-run tokenization dropping empty tokens. -/
def splitWs (s : String) : List String := splitWsAux s.toList []

/-! ## Trie (`ConceptExtractor.build_trie`)

The Python trie is a dict mapping a token to a pair
`(end_of_phrase_flag, child_dict)`.  We embed the child dict as an
association list; `build_trie` produces its keys in sorted order
(`sorted` + `groupby`), which we reproduce with a sorted
deduplicated list of head tokens.
-/

/-- A trie node's children: each entry is `(token, end_of_phrase, subtrie)`,
the Lean image of the Python dict `{token: (matched, subdict)}`. -/
inductive Trie : Type where
  | mk : List (String × Bool × Trie) → Trie

/-- Children association list of a trie node. -/
def Trie.children : Trie → List (String × Bool × Trie)
  | .mk cs => cs

abbrev Children := List (String × Bool × Trie)

/-- Lexicographic comparison of token lists by code point, the order
`sorted` uses on the head tokens in `build_trie`. -/
def strLtAux : List Char → List Char → Bool
  | [], [] => false
  | [], _ :: _ => true
  | _ :: _, [] => false
  | a :: as, b :: bs =>
      if a.toNat < b.toNat then true
      else if b.toNat < a.toNat then false
      else strLtAux as bs

/-- Lexicographic string comparison by code point. -/
def strLt (a b : String) : Bool := strLtAux a.toList b.toList

/-- Insert a string into a sorted duplicate-free list, keeping it sorted
and duplicate-free. -/
def insSorted (x : String) : List String → List String
  | [] => [x]
  | y :: ys => if x = y then y :: ys else if strLt x y then x :: y :: ys else y :: insSorted x ys

/-- Sorted list of the distinct elements of `l`.  This reproduces the heads
of the groups that `groupby(sorted(tails, key=first), key=first)` yields in
`build_trie`. -/
def dedupSort : List String → List String
  | [] => []
  | x :: xs => insSorted x (dedupSort xs)

/-- Total length of a list of phrases, the termination measure of the
recursive `trie` helper in `build_trie`. -/
def sumLen (l : List (List String)) : Nat := (l.map List.length).sum

/-- Fueled version of the recursive helper `trie(head, tails)` of
`build_trie`: `match` is `[] in tails`; the children are built, per distinct
head token (in sorted order, as `sorted`+`groupby` produce), from the tails
of the nonempty phrases starting with that token.  The fuel only serves
termination; `trieGo_fuel` shows any fuel above `sumLen tails` gives the
same result. -/
def trieGo : Nat → List (List String) → Bool × Trie
  | 0, _ => (false, .mk [])
  | fuel + 1, tails =>
      (tails.contains [],
        .mk ((dedupSort ((tails.filter (fun i => !i.isEmpty)).filterMap List.head?)).map
          (fun h =>
            (h, trieGo fuel
              (((tails.filter (fun i => !i.isEmpty)).filter
                  (fun i => i.head? = some h)).map (fun i => i.drop 1))))))

/-- The helper `trie(head, tails)` from `build_trie`, with adequate fuel. -/
def trieNode (tails : List (List String)) : Bool × Trie :=
  trieGo (sumLen tails + 1) tails

/-- Source `ConceptExtractor.build_trie(dictionary)`: builds the root children dict,
discarding the root's end-of-phrase flag (`trie(None, list(dictionary))[1]`). -/
def build_trie (dictionary : List (List String)) : Children :=
  ((trieNode dictionary).2).children

/-- The trie held by `ConceptExtractor(dictionary)`: phrases are the
whitespace tokenizations of the dictionary entries. -/
def conceptTrie (dictionary : List String) : Children :=
  build_trie (dictionary.map splitWs)

/-! ## Extractor (`ConceptExtractor.extract`) -/

/-- A live tracker `((start, match), trie)` as in `extract`. -/
abbrev Tracker := (Nat × List String) × Children

/-- Python `token in trie` / `trie[token]`: look the token up in a node's
children dict. -/
def findTok (cs : Children) (t : String) : Option (Bool × Trie) :=
  (cs.find? (fun e => e.1 = t)).map (fun e => e.2)

/-- One pass of the inner `for` loop of `extract` over the candidate
tracker list: returns the advanced trackers (`updated`) and the pairs
yielded during this pass, in candidate order. -/
def stepAll (token : String) : List Tracker → List Tracker × List (Nat × List String)
  | [] => ([], [])
  | ((s, m), cs) :: rest =>
      let r := stepAll token rest
      match findTok cs token with
      | none => r
      | some (matched, tr) =>
          (((s, m ++ [token]), tr.children) :: r.1,
            if matched then (s, m ++ [token]) :: r.2 else r.2)

/-- The `for start, token in enumerate(tokens)` loop of `extract`:
returns the yielded pairs in order, together with the final tracker list. -/
def extractGo (root : Children) : List Tracker → Nat → List String →
    List (Nat × List String) × List Tracker
  | trackers, _, [] => ([], trackers)
  | trackers, start, token :: rest =>
      let step := stepAll token (trackers ++ [((start, []), root)])
      let tail := extractGo root step.1 (start + 1) rest
      (step.2 ++ tail.1, tail.2)

/-- Source `ConceptExtractor.extract(tokens)`: the ordered list of yielded
`(start_index, matched_tokens)` pairs. -/
def extract (root : Children) (tokens : List String) : List (Nat × List String) :=
  (extractGo root [] 0 tokens).1

/-- The tracker list `extract` holds after consuming `tokens`. -/
def trackersAfter (root : Children) (tokens : List String) : List Tracker :=
  (extractGo root [] 0 tokens).2

/-! ## Basic lemmas about the trie builder -/

theorem mem_insSorted (a x : String) (l : List String) :
    a ∈ insSorted x l ↔ a = x ∨ a ∈ l := by
  induction l with
  | nil => simp [insSorted]
  | cons y ys ih =>
      by_cases hxy : x = y
      · subst hxy
        simp only [insSorted, if_pos rfl]
        constructor
        · intro h; exact Or.inr h
        · rintro (rfl | h)
          · exact List.mem_cons_self _ _
          · exact h
      · rcases hlt : strLt x y with _ | _
        · simp only [insSorted, if_neg hxy, hlt, Bool.false_eq_true, if_false,
            List.mem_cons, ih]
          tauto
        · simp [insSorted, hxy, hlt]

theorem mem_dedupSort (a : String) (l : List String) :
    a ∈ dedupSort l ↔ a ∈ l := by
  induction l with
  | nil => simp [dedupSort]
  | cons x xs ih => simp [dedupSort, mem_insSorted, ih]

theorem sumLen_filter_le (p : List String → Bool) (l : List (List String)) :
    sumLen (l.filter p) ≤ sumLen l := by
  induction l with
  | nil => simp [sumLen]
  | cons x xs ih =>
      simp only [sumLen, List.map, List.sum_cons] at ih ⊢
      by_cases h : p x
      · simp only [List.filter_cons, h, if_true, List.map, List.sum_cons]
        omega
      · simp only [List.filter_cons, h, Bool.false_eq_true, if_false]
        omega

theorem sumLen_drop_le (l : List (List String)) :
    sumLen (l.map (fun i => i.drop 1)) ≤ sumLen l := by
  induction l with
  | nil => simp [sumLen]
  | cons x xs ih =>
      simp only [sumLen, List.map, List.sum_cons, List.length_drop] at ih ⊢
      omega

theorem sumLen_drop_lt (l : List (List String)) (h : ∃ i ∈ l, i ≠ []) :
    sumLen (l.map (fun i => i.drop 1)) < sumLen l := by
  induction l with
  | nil => simp at h
  | cons x xs ih =>
      obtain ⟨i, hi, hne⟩ := h
      have hdl := sumLen_drop_le xs
      simp only [sumLen, List.map, List.sum_cons, List.length_drop] at hdl ⊢
      rcases List.mem_cons.mp hi with rfl | hmem
      · have hx : 1 ≤ i.length := by
          cases i with
          | nil => exact absurd rfl hne
          | cons a as => simp
        omega
      · have := ih ⟨i, hmem, hne⟩
        simp only [sumLen, List.length_drop] at this
        omega

/-- Membership in the sorted head list implies a matching nonempty phrase. -/
theorem exists_of_mem_heads (tails : List (List String)) (h : String)
    (hh : h ∈ dedupSort ((tails.filter (fun i => !i.isEmpty)).filterMap List.head?)) :
    ∃ i ∈ tails.filter (fun i => !i.isEmpty), i.head? = some h := by
  rw [mem_dedupSort] at hh
  obtain ⟨i, hi, hhead⟩ := List.mem_filterMap.mp hh
  exact ⟨i, hi, hhead⟩

/-- The recursive argument of `trieGo` is smaller than its input. -/
theorem sumLen_sub_lt (tails : List (List String)) (h : String)
    (hh : h ∈ dedupSort ((tails.filter (fun i => !i.isEmpty)).filterMap List.head?)) :
    sumLen (((tails.filter (fun i => !i.isEmpty)).filter
      (fun i => i.head? = some h)).map (fun i => i.drop 1)) < sumLen tails := by
  obtain ⟨i, hi, hhead⟩ := exists_of_mem_heads tails h hh
  have hne : i ≠ [] := by
    intro hnil; subst hnil; simp at hhead
  have h1 : sumLen (((tails.filter (fun i => !i.isEmpty)).filter
      (fun i => i.head? = some h)).map (fun i => i.drop 1))
      < sumLen ((tails.filter (fun i => !i.isEmpty)).filter (fun i => i.head? = some h)) := by
    refine sumLen_drop_lt _ ⟨i, ?_, hne⟩
    exact List.mem_filter.mpr ⟨hi, by simp [hhead]⟩
  calc sumLen (((tails.filter (fun i => !i.isEmpty)).filter
          (fun i => i.head? = some h)).map (fun i => i.drop 1))
      < sumLen ((tails.filter (fun i => !i.isEmpty)).filter (fun i => i.head? = some h)) := h1
    _ ≤ sumLen (tails.filter (fun i => !i.isEmpty)) := sumLen_filter_le _ _
    _ ≤ sumLen tails := sumLen_filter_le _ _

/-- Fuel irrelevance: any fuel above the total phrase length gives the same
trie. -/
theorem trieGo_fuel : ∀ (f₁ : Nat), ∀ (f₂ : Nat) (tails : List (List String)),
    sumLen tails < f₁ → sumLen tails < f₂ → trieGo f₁ tails = trieGo f₂ tails := by
  intro f₁
  induction f₁ with
  | zero => intro f₂ tails h1 _; omega
  | succ n ih =>
      intro f₂ tails h1 h2
      cases f₂ with
      | zero => omega
      | succ m =>
          simp only [trieGo]
          refine congrArg _ (congrArg _ (List.map_congr_left ?_))
          intro h hh
          refine congrArg _ ?_
          have hlt := sumLen_sub_lt tails h hh
          have e1 := ih n (((tails.filter (fun i => !i.isEmpty)).filter
              (fun i => i.head? = some h)).map (fun i => i.drop 1)) (by omega) (by omega)
          have e2 := ih m (((tails.filter (fun i => !i.isEmpty)).filter
              (fun i => i.head? = some h)).map (fun i => i.drop 1)) (by omega) (by omega)
          rw [← e1, e2]

/-- Unfolding equation for `trieNode`, the faithful image of the recursive
`trie` helper of `build_trie`. -/
theorem trieNode_eq (tails : List (List String)) :
    trieNode tails = (tails.contains [],
      .mk ((dedupSort ((tails.filter (fun i => !i.isEmpty)).filterMap List.head?)).map
        (fun h =>
          (h, trieNode
            (((tails.filter (fun i => !i.isEmpty)).filter
                (fun i => i.head? = some h)).map (fun i => i.drop 1)))))) := by
  show trieGo (sumLen tails + 1) tails = _
  simp only [trieGo]
  refine congrArg _ (congrArg _ (List.map_congr_left ?_))
  intro h hh
  refine congrArg _ ?_
  exact trieGo_fuel _ _ _ (sumLen_sub_lt tails h hh) (Nat.lt_succ_self _)

/-! ## Walking the trie -/

/-- Boolean test that `p` is an initial segment of `i`. -/
def pre : List String → List String → Bool
  | [], _ => true
  | _ :: _, [] => false
  | a :: as, b :: bs => a = b && pre as bs

theorem pre_iff (p i : List String) : pre p i = true ↔ ∃ r, i = p ++ r := by
  induction p generalizing i with
  | nil => simp [pre]
  | cons a as ih =>
      cases i with
      | nil => simp [pre]
      | cons b bs =>
          simp only [pre, Bool.and_eq_true, decide_eq_true_eq, ih, List.cons_append,
            List.cons.injEq]
          constructor
          · rintro ⟨rfl, r, rfl⟩; exact ⟨r, rfl, rfl⟩
          · rintro ⟨r, rfl, rfl⟩; exact ⟨rfl, r, rfl⟩

theorem pre_refl (p : List String) : pre p p = true :=
  (pre_iff p p).mpr ⟨[], by simp⟩

/-- Walk a `(flag, trie)` pair along a token list, returning the pair reached. -/
def walkN : Bool × Trie → List String → Option (Bool × Trie)
  | bt, [] => some bt
  | (_, .mk cs), t :: rest =>
      match findTok cs t with
      | none => none
      | some bt2 => walkN bt2 rest

/-- Walk a children dict along a nonempty token list, as `extract` does one
token at a time: returns the end-of-phrase flag of the last edge and the
children dict reached. -/
def walkC (cs : Children) (p : List String) : Option (Bool × Children) :=
  if p = [] then none
  else (walkN (false, .mk cs) p).map (fun bt => (bt.1, bt.2.children))

/-- Phrases of `tails` that extend `p`, with `p` chopped off: the tail set
that the sub-trie reached by `p` is built from. -/
def tailsAfter (p : List String) (tails : List (List String)) : List (List String) :=
  (tails.filter (fun i => pre p i)).map (fun i => i.drop p.length)

theorem contains_iff_mem (l : List (List String)) (x : List String) :
    l.contains x = true ↔ x ∈ l := List.elem_iff

theorem findTok_map_keyed (hs : List String) (g : String → Bool × Trie) (t : String) :
    findTok (hs.map (fun h => (h, g h))) t = if t ∈ hs then some (g t) else none := by
  induction hs with
  | nil => simp [findTok]
  | cons h hs ih =>
      by_cases hht : h = t
      · subst hht
        simp [findTok, List.find?]
      · unfold findTok at ih ⊢
        simp only [List.map, List.find?_cons]
        have hd : (decide (h = t)) = false := by simp [hht]
        rw [hd]
        rw [ih]
        by_cases hmem : t ∈ hs
        · rw [if_pos hmem, if_pos (List.mem_cons_of_mem _ hmem)]
        · rw [if_neg hmem, if_neg ?_]
          intro hc
          rcases List.mem_cons.mp hc with h2 | h2
          · exact hht h2.symm
          · exact hmem h2

/-- Heads of the children dict of `trieNode tails` are exactly the head
tokens of nonempty phrases. -/
theorem mem_heads_iff (tails : List (List String)) (t : String) :
    t ∈ dedupSort ((tails.filter (fun i => !i.isEmpty)).filterMap List.head?) ↔
      ∃ i ∈ tails, pre [t] i = true := by
  rw [mem_dedupSort, List.mem_filterMap]
  constructor
  · rintro ⟨i, hi, hhead⟩
    obtain ⟨hi', _⟩ := List.mem_filter.mp hi
    refine ⟨i, hi', ?_⟩
    cases i with
    | nil => simp at hhead
    | cons b bs =>
        simp only [List.head?, Option.some.injEq] at hhead
        simp [pre, hhead]
  · rintro ⟨i, hi, hpre⟩
    cases i with
    | nil => simp [pre] at hpre
    | cons b bs =>
        simp only [pre, Bool.and_eq_true, decide_eq_true_eq] at hpre
        refine ⟨b :: bs, List.mem_filter.mpr ⟨hi, by simp⟩, ?_⟩
        simp [hpre.1]

/-- The children group for head `t` is the tail set after `[t]`. -/
theorem sub_eq_tailsAfter (tails : List (List String)) (t : String) :
    ((tails.filter (fun i => !i.isEmpty)).filter (fun i => i.head? = some t)).map
        (fun i => i.drop 1) = tailsAfter [t] tails := by
  rw [tailsAfter, List.filter_filter]
  refine congrArg _ (List.filter_congr ?_)
  intro i _
  cases i with
  | nil => simp [pre]
  | cons b bs =>
      simp only [List.head?, Option.some.injEq, List.isEmpty_cons, Bool.not_false,
        Bool.and_true, pre, Bool.and_eq_true, decide_eq_true_eq]
      simp [eq_comm, pre]

/-- Tail sets compose: chopping `[t]` then `rest` is chopping `t :: rest`. -/
theorem tailsAfter_tailsAfter (t : String) (rest : List String)
    (tails : List (List String)) :
    tailsAfter rest (tailsAfter [t] tails) = tailsAfter (t :: rest) tails := by
  unfold tailsAfter
  rw [List.filter_map, List.map_map]
  refine congrArg₂ _ ?_ ?_
  · funext i
    simp only [Function.comp_apply, List.length_cons]
    rw [List.drop_drop, Nat.add_comm]
    simp
  · rw [List.filter_filter]
    refine List.filter_congr ?_
    intro i _
    cases i with
    | nil => simp [pre]
    | cons b bs =>
        simp only [Function.comp_apply, List.drop_succ_cons, List.drop_zero, pre,
          Bool.and_true]
        rw [Bool.and_comm]
        simp [pre]

theorem any_pre_cons (t : String) (rest : List String) (tails : List (List String)) :
    (tailsAfter [t] tails).any (fun i => pre rest i) = tails.any (fun i => pre (t :: rest) i) := by
  rw [Bool.eq_iff_iff, List.any_eq_true, List.any_eq_true]
  constructor
  · rintro ⟨x, hx, hpre⟩
    obtain ⟨i, hi, rfl⟩ := List.mem_map.mp hx
    obtain ⟨hi', hp1⟩ := List.mem_filter.mp hi
    cases i with
    | nil => simp [pre] at hp1
    | cons b bs =>
        simp only [pre, Bool.and_eq_true, decide_eq_true_eq] at hp1
        refine ⟨b :: bs, hi', ?_⟩
        simp only [List.length_cons, List.length_nil, List.drop_succ_cons,
          List.drop_zero] at hpre
        simp [pre, hp1.1, hpre]
  · rintro ⟨i, hi, hpre⟩
    cases i with
    | nil => simp [pre] at hpre
    | cons b bs =>
        simp only [pre, Bool.and_eq_true, decide_eq_true_eq] at hpre
        refine ⟨bs, List.mem_map.mpr ⟨b :: bs, List.mem_filter.mpr ⟨hi, ?_⟩, ?_⟩, hpre.2⟩
        · simp [pre, hpre.1]
        · simp

/-- Semantics of walking the built trie: walking `p` from `trieNode tails`
reaches the node built from the tails after `p`, when some phrase extends
`p`; otherwise the walk dies. -/
theorem walkN_trieNode (p : List String) : p ≠ [] → ∀ tails : List (List String),
    walkN (trieNode tails) p =
      if tails.any (fun i => pre p i) then some (trieNode (tailsAfter p tails)) else none := by
  induction p with
  | nil => intro h; exact absurd rfl h
  | cons t rest ih =>
      intro _ tails
      rw [trieNode_eq tails]
      show (match findTok ((dedupSort _).map _) t with
        | none => none
        | some bt2 => walkN bt2 rest) = _
      rw [findTok_map_keyed]
      by_cases hmem : t ∈ dedupSort ((tails.filter (fun i => !i.isEmpty)).filterMap List.head?)
      · rw [if_pos hmem, sub_eq_tailsAfter]
        rcases Decidable.em (rest = []) with hrest | hrest
        · subst hrest
          show some (trieNode (tailsAfter [t] tails)) = _
          have hTrue : tails.any (fun i => pre [t] i) = true := by
            rw [List.any_eq_true]
            obtain ⟨i, hi, h2⟩ := (mem_heads_iff tails t).mp hmem
            exact ⟨i, hi, h2⟩
          rw [if_pos hTrue]
        · show walkN (trieNode (tailsAfter [t] tails)) rest = _
          rw [ih hrest, tailsAfter_tailsAfter, any_pre_cons]
      · rw [if_neg hmem]
        have : tails.any (fun i => pre (t :: rest) i) = false := by
          rw [List.any_eq_false]
          intro i hi
          intro hcontra
          refine hmem ((mem_heads_iff tails t).mpr ⟨i, hi, ?_⟩)
          cases i with
          | nil => simp [pre] at hcontra
          | cons b bs =>
              simp only [pre, Bool.and_eq_true, decide_eq_true_eq] at hcontra
              simp [pre, hcontra.1]
        rw [this]
        simp

/-- End-of-phrase flag of the node after `p`: set exactly when `p` itself is
a phrase. -/
theorem contains_tailsAfter (p : List String) (tails : List (List String)) :
    (tailsAfter p tails).contains [] = tails.contains p := by
  rw [Bool.eq_iff_iff, contains_iff_mem, contains_iff_mem]
  constructor
  · intro h1
    unfold tailsAfter at h1
    obtain ⟨i, hi, hdrop⟩ := List.mem_map.mp h1
    obtain ⟨hi', hpre⟩ := List.mem_filter.mp hi
    obtain ⟨r, rfl⟩ := (pre_iff p _).mp hpre
    rw [List.drop_append_of_le_length (le_refl _)] at hdrop
    simp only [List.drop_length, List.nil_append] at hdrop
    subst hdrop
    simpa using hi'
  · intro hp
    unfold tailsAfter
    rw [List.mem_map]
    exact ⟨p, List.mem_filter.mpr ⟨hp, pre_refl p⟩, by simp⟩

/-! ## The extraction loop invariant

After consuming a prefix `prev` of the token stream, the live tracker list
of `extract` is exactly the canonical list: one tracker per start index `i`
whose suffix `prev.drop i` is still walkable in the trie, in ascending
order of `i`.
-/

/-- Advance one candidate tracker on `token`, as the inner loop of
`extract` does; `none` when the tracker is dropped. -/
def adv (token : String) (tr : Tracker) : Option Tracker :=
  (findTok tr.2 token).map (fun bt => ((tr.1.1, tr.1.2 ++ [token]), bt.2.children))

/-- The pair a candidate tracker yields on `token`, if any. -/
def yld (token : String) (tr : Tracker) : Option (Nat × List String) :=
  (findTok tr.2 token).bind
    (fun bt => if bt.1 then some (tr.1.1, tr.1.2 ++ [token]) else none)

theorem stepAll_eq (token : String) (l : List Tracker) :
    stepAll token l = (l.filterMap (adv token), l.filterMap (yld token)) := by
  induction l with
  | nil => rfl
  | cons tr rest ih =>
      obtain ⟨⟨s, m⟩, cs⟩ := tr
      show (match findTok cs token with
        | none => stepAll token rest
        | some (matched, tr) =>
            (((s, m ++ [token]), tr.children) :: (stepAll token rest).1,
              if matched then (s, m ++ [token]) :: (stepAll token rest).2
              else (stepAll token rest).2)) = _
      rcases hf : findTok cs token with _ | ⟨matched, tr⟩
      · simp [ih, List.filterMap_cons, adv, yld, hf]
      · rcases matched with _ | _
        · simp [ih, List.filterMap_cons, adv, yld, hf]
        · simp [ih, List.filterMap_cons, adv, yld, hf]

/-- The canonical tracker list after consuming `prev`. -/
def canon (root : Children) (prev : List String) : List Tracker :=
  (List.range prev.length).filterMap
    (fun i => (walkC root (prev.drop i)).map (fun bc => ((i, prev.drop i), bc.2)))

/-- The pairs yielded at the step that consumes the last token of `full`. -/
def yieldsAt (root : Children) (full : List String) : List (Nat × List String) :=
  (List.range full.length).filterMap
    (fun i => (walkC root (full.drop i)).bind
      (fun bc => if bc.1 then some (i, full.drop i) else none))

theorem walkC_single (cs : Children) (t : String) :
    walkC cs [t] = (findTok cs t).map (fun bt => (bt.1, bt.2.children)) := by
  unfold walkC
  rw [if_neg (by simp)]
  rcases hf : findTok cs t with _ | bt
  · simp [walkN, hf]
  · simp [walkN, hf]

theorem walkN_append (bt : Bool × Trie) (p q : List String) :
    walkN bt (p ++ q) = (walkN bt p).bind (fun bt2 => walkN bt2 q) := by
  induction p generalizing bt with
  | nil => simp [walkN]
  | cons t rest ih =>
      obtain ⟨b, ⟨cs⟩⟩ := bt
      rcases hf : findTok cs t with _ | bt2
      · simp [walkN, hf]
      · simp [walkN, hf, ih]

theorem walkC_snoc (cs : Children) (p : List String) (t : String) (hp : p ≠ []) :
    walkC cs (p ++ [t]) =
      (walkC cs p).bind (fun bc => (findTok bc.2 t).map (fun bt => (bt.1, bt.2.children))) := by
  unfold walkC
  rw [if_neg (by simp), if_neg hp, walkN_append]
  rcases hw : walkN (false, .mk cs) p with _ | ⟨b2, ⟨cs2⟩⟩
  · rfl
  · rcases hf : findTok cs2 t with _ | bt
    · simp [walkN, hf, Trie.children]
    · simp [walkN, hf, Trie.children]

/-- One step of the loop, started from the canonical tracker list plus the
fresh tracker: produces the canonical list for the extended prefix and the
pairs yielded at this step. -/
theorem canonStep (root : Children) (prev : List String) (t : String) :
    stepAll t (canon root prev ++ [((prev.length, []), root)]) =
      (canon root (prev ++ [t]), yieldsAt root (prev ++ [t])) := by
  rw [stepAll_eq, List.filterMap_append, List.filterMap_append]
  unfold canon yieldsAt
  rw [List.filterMap_filterMap, List.filterMap_filterMap]
  have hlen : (prev ++ [t]).length = prev.length + 1 := by simp
  rw [hlen, List.range_succ, List.filterMap_append, List.filterMap_append]
  have hdropn : (prev ++ [t]).drop prev.length = [t] := by
    rw [List.drop_append_of_le_length (le_refl _)]
    simp
  refine congrArg₂ _ (congrArg₂ _ ?_ ?_) (congrArg₂ _ ?_ ?_)
  · refine List.filterMap_congr ?_
    intro i hi
    have hilt : i < prev.length := List.mem_range.mp hi
    have hdrop : (prev ++ [t]).drop i = prev.drop i ++ [t] :=
      List.drop_append_of_le_length (Nat.le_of_lt hilt)
    have hne : prev.drop i ≠ [] := by
      intro hnil
      have : prev.length - i = 0 := by
        have := congrArg List.length hnil
        simpa using this
      omega
    rw [hdrop, walkC_snoc root _ t hne]
    rcases walkC root (prev.drop i) with _ | bc
    · rfl
    · rcases hf : findTok bc.2 t with _ | bt
      · simp [adv, hf]
      · simp [adv, hf]
  · simp only [List.filterMap_cons, List.filterMap_nil]
    rw [hdropn, walkC_single]
    rcases hf : findTok root t with _ | bt
    · simp [adv, hf]
    · simp [adv, hf]
  · refine List.filterMap_congr ?_
    intro i hi
    have hilt : i < prev.length := List.mem_range.mp hi
    have hdrop : (prev ++ [t]).drop i = prev.drop i ++ [t] :=
      List.drop_append_of_le_length (Nat.le_of_lt hilt)
    have hne : prev.drop i ≠ [] := by
      intro hnil
      have : prev.length - i = 0 := by
        have := congrArg List.length hnil
        simpa using this
      omega
    rw [hdrop, walkC_snoc root _ t hne]
    rcases walkC root (prev.drop i) with _ | bc
    · rfl
    · rcases hf : findTok bc.2 t with _ | bt
      · simp [yld, hf]
      · simp [yld, hf]
  · simp only [List.filterMap_cons, List.filterMap_nil]
    rw [hdropn, walkC_single]
    rcases hf : findTok root t with _ | bt
    · simp [yld, hf]
    · simp [yld, hf]

/-- Per-step reference output, accumulated along the stream. -/
def specFrom (root : Children) (prev : List String) : List String → List (Nat × List String)
  | [] => []
  | t :: rest => yieldsAt root (prev ++ [t]) ++ specFrom root (prev ++ [t]) rest

theorem extractGo_canon (root : Children) (rest : List String) : ∀ prev : List String,
    extractGo root (canon root prev) prev.length rest =
      (specFrom root prev rest, canon root (prev ++ rest)) := by
  induction rest with
  | nil => intro prev; simp [extractGo, specFrom]
  | cons t rest ih =>
      intro prev
      show (let step := stepAll t (canon root prev ++ [((prev.length, []), root)])
        let tail := extractGo root step.1 (prev.length + 1) rest
        (step.2 ++ tail.1, tail.2)) = _
      rw [canonStep root prev t]
      have hlen : prev.length + 1 = (prev ++ [t]).length := by simp
      show (yieldsAt root (prev ++ [t]) ++
          (extractGo root (canon root (prev ++ [t])) (prev.length + 1) rest).1,
        (extractGo root (canon root (prev ++ [t])) (prev.length + 1) rest).2) = _
      rw [hlen, ih (prev ++ [t])]
      simp [specFrom]

theorem canon_nil (root : Children) : canon root [] = [] := by
  simp [canon]

theorem extract_eq_specFrom (root : Children) (tokens : List String) :
    extract root tokens = specFrom root [] tokens := by
  have h := extractGo_canon root tokens []
  rw [canon_nil] at h
  show (extractGo root [] ([] : List String).length tokens).1 = _
  rw [h]

theorem trackersAfter_eq_canon (root : Children) (tokens : List String) :
    trackersAfter root tokens = canon root tokens := by
  have h := extractGo_canon root tokens []
  rw [canon_nil] at h
  show (extractGo root [] ([] : List String).length tokens).2 = _
  rw [h]
  simp

/-- Reference extraction output: for each end position `j` (in stream
order) and each start index `i ≤ j` (ascending), the slice
`tokens[i..j]` when it is a dictionary phrase. -/
def extractSpec (phrases : List (List String)) (tokens : List String) :
    List (Nat × List String) :=
  (List.range tokens.length).flatMap (fun j =>
    (List.range (j + 1)).filterMap (fun i =>
      if phrases.contains ((tokens.take (j + 1)).drop i)
      then some (i, (tokens.take (j + 1)).drop i) else none))

theorem specFrom_bind (root : Children) (rest : List String) : ∀ prev : List String,
    specFrom root prev rest =
      (List.range rest.length).flatMap (fun k => yieldsAt root (prev ++ rest.take (k + 1))) := by
  induction rest with
  | nil => intro prev; simp [specFrom]
  | cons t rest ih =>
      intro prev
      show yieldsAt root (prev ++ [t]) ++ specFrom root (prev ++ [t]) rest = _
      rw [ih (prev ++ [t])]
      rw [List.length_cons, List.range_succ_eq_map]
      rw [List.flatMap_cons]
      refine congrArg₂ _ (by simp) ?_
      rw [List.flatMap_map]
      refine congrArg _ (funext (fun k => ?_))
      show yieldsAt root ((prev ++ [t]) ++ rest.take (k + 1)) = _
      rw [List.append_assoc]
      rfl

/-- Flag of the walk from the built trie: `p` is reachable with flag set iff
`p` is literally one of the (nonempty) phrases. -/
theorem walkC_build_trie (phrases : List (List String)) (p : List String) (hp : p ≠ []) :
    walkC (build_trie phrases) p =
      if phrases.any (fun i => pre p i)
      then some ((phrases.contains p, ((trieNode (tailsAfter p phrases)).2).children))
      else none := by
  unfold walkC
  rw [if_neg hp]
  have hw : walkN (false, .mk (build_trie phrases)) p = walkN (trieNode phrases) p := by
    unfold build_trie
    rcases hn : trieNode phrases with ⟨b, ⟨cs⟩⟩
    cases p with
    | nil => exact absurd rfl hp
    | cons t rest => simp [walkN, Trie.children]
  rw [hw, walkN_trieNode p hp phrases]
  by_cases hany : phrases.any (fun i => pre p i)
  · rw [if_pos hany, if_pos hany]
    have hflag : (trieNode (tailsAfter p phrases)).1 = phrases.contains p := by
      rw [trieNode_eq]
      exact contains_tailsAfter p phrases
    rw [← hflag]
    rfl
  · rw [if_neg hany, if_neg hany]
    rfl

/-- Per-step yields over the built trie, in dictionary terms. -/
theorem yieldsAt_build_trie (phrases : List (List String)) (full : List String) :
    yieldsAt (build_trie phrases) full =
      (List.range full.length).filterMap (fun i =>
        if phrases.contains (full.drop i) then some (i, full.drop i) else none) := by
  unfold yieldsAt
  refine List.filterMap_congr ?_
  intro i hi
  have hilt : i < full.length := List.mem_range.mp hi
  have hne : full.drop i ≠ [] := by
    intro hnil
    have := congrArg List.length hnil
    simp only [List.length_drop, List.length_nil] at this
    omega
  rw [walkC_build_trie phrases _ hne]
  by_cases hany : phrases.any (fun j => pre (full.drop i) j)
  · rw [if_pos hany]
    show (if phrases.contains (full.drop i) then some (i, full.drop i) else none) = _
    rfl
  · rw [if_neg hany]
    have hc : phrases.contains (full.drop i) = false := by
      rcases hcc : phrases.contains (full.drop i) with _ | _
      · rfl
      · exfalso
        refine hany ?_
        rw [List.any_eq_true]
        exact ⟨full.drop i, (contains_iff_mem _ _).mp hcc, pre_refl _⟩
    rw [hc]
    simp

/-- The extractor agrees with the reference output on every dictionary and
token sequence. -/
theorem extract_eq_extractSpec (phrases : List (List String)) (tokens : List String) :
    extract (build_trie phrases) tokens = extractSpec phrases tokens := by
  rw [extract_eq_specFrom, specFrom_bind]
  unfold extractSpec
  refine List.flatMap_congr ?_
  intro j hj
  have hjlt : j < tokens.length := List.mem_range.mp hj
  show yieldsAt (build_trie phrases) ([] ++ tokens.take (j + 1)) = _
  rw [List.nil_append, yieldsAt_build_trie]
  have hlen : (tokens.take (j + 1)).length = j + 1 := by
    rw [List.length_take]
    omega
  rw [hlen]

/-- Membership in the reference output: exactly the in-range occurrences of
(nonempty) dictionary phrases. -/
theorem mem_extractSpec (phrases : List (List String)) (tokens : List String)
    (i : Nat) (p : List String) :
    (i, p) ∈ extractSpec phrases tokens ↔
      p ∈ phrases ∧ p ≠ [] ∧ i + p.length ≤ tokens.length ∧
        (tokens.drop i).take p.length = p := by
  unfold extractSpec
  rw [List.mem_flatMap]
  constructor
  · rintro ⟨j, hj, hmem⟩
    have hjlt : j < tokens.length := List.mem_range.mp hj
    obtain ⟨i2, hi2, hf⟩ := List.mem_filterMap.mp hmem
    have hile : i2 < j + 1 := List.mem_range.mp hi2
    by_cases hc : phrases.contains ((tokens.take (j + 1)).drop i2)
    · rw [if_pos hc] at hf
      have hpair := Option.some.inj hf
      rw [Prod.mk.injEq] at hpair
      obtain ⟨rfl, rfl⟩ := hpair
      have hlen : (tokens.take (j + 1)).length = j + 1 := by
        rw [List.length_take]
        omega
      have hplen : ((tokens.take (j + 1)).drop i2).length = j + 1 - i2 := by
        rw [List.length_drop, hlen]
      refine ⟨(contains_iff_mem _ _).mp hc, ?_, ?_, ?_⟩
      · intro hnil
        rw [hnil] at hplen
        simp only [List.length_nil] at hplen
        omega
      · rw [hplen]
        omega
      · rw [hplen, List.drop_take]
    · rw [if_neg hc] at hf
      exact absurd hf (by simp)
  · rintro ⟨hmem, hne, hle, htake⟩
    have hplen : 1 ≤ p.length := by
      cases p with
      | nil => exact absurd rfl hne
      | cons a as => simp
    refine ⟨i + p.length - 1, List.mem_range.mpr (by omega), ?_⟩
    rw [List.mem_filterMap]
    refine ⟨i, List.mem_range.mpr (by omega), ?_⟩
    have hslice : (tokens.take (i + p.length - 1 + 1)).drop i = p := by
      rw [List.drop_take]
      have : i + p.length - 1 + 1 - i = p.length := by omega
      rw [this, htake]
    rw [hslice, if_pos ((contains_iff_mem _ _).mpr hmem)]

/-! ## Lemmas for the tracker-set invariant (C9) -/

/-- Longest phrase length: the bound `L` on the live tracker count. -/
def maxPhraseLen (phrases : List (List String)) : Nat :=
  (phrases.map List.length).foldr max 0

theorem le_foldr_max (l : List Nat) (x : Nat) (hx : x ∈ l) : x ≤ l.foldr max 0 := by
  induction l with
  | nil => simp at hx
  | cons a as ih =>
      rcases List.mem_cons.mp hx with rfl | h
      · exact Nat.le_max_left _ _
      · exact le_trans (ih h) (Nat.le_max_right _ _)

theorem canon_starts (root : Children) (prev : List String) :
    (canon root prev).map (fun tr => tr.1.1) =
      (List.range prev.length).filterMap
        (fun i => (walkC root (prev.drop i)).map (fun _ => i)) := by
  unfold canon
  rw [List.map_filterMap]
  refine List.filterMap_congr ?_
  intro i _
  rcases walkC root (prev.drop i) with _ | bc <;> rfl

theorem pairwise_lt_filterMap_self (f : Nat → Option Nat)
    (hf : ∀ i x, f i = some x → x = i) :
    ∀ l : List Nat, l.Pairwise (· < ·) → (l.filterMap f).Pairwise (· < ·) := by
  intro l
  induction l with
  | nil => intro _; simp
  | cons a as ih =>
      intro hp
      rw [List.pairwise_cons] at hp
      rw [List.filterMap_cons]
      rcases hfa : f a with _ | b
      · exact ih hp.2
      · have hb : b = a := hf a b hfa
        subst hb
        rw [List.pairwise_cons]
        refine ⟨?_, ih hp.2⟩
        intro c hc
        obtain ⟨j, hj, hfj⟩ := List.mem_filterMap.mp hc
        have : c = j := hf j c hfj
        subst this
        exact hp.1 c hj

theorem length_le_of_nodup_window (l : List Nat) (hnd : l.Nodup) (a b : Nat)
    (h : ∀ x ∈ l, a ≤ x ∧ x < b) : l.length ≤ b - a := by
  have hcard : l.toFinset.card = l.length := List.toFinset_card_of_nodup hnd
  have hsub : l.toFinset ⊆ Finset.Ico a b := by
    intro x hx
    rw [List.mem_toFinset] at hx
    rw [Finset.mem_Ico]
    exact ⟨(h x hx).1, (h x hx).2⟩
  have := Finset.card_le_card hsub
  rw [hcard, Nat.card_Ico] at this
  exact this

/-- A live tracker at start `i` after consuming `prev` means the suffix
`prev.drop i` is a nonempty initial segment of some dictionary phrase. -/
theorem walkC_some_exists (phrases : List (List String)) (p : List String)
    (hp : p ≠ []) (bc : Bool × Children)
    (h : walkC (build_trie phrases) p = some bc) :
    ∃ q ∈ phrases, ∃ r, q = p ++ r := by
  rw [walkC_build_trie phrases p hp] at h
  by_cases hany : phrases.any (fun i => pre p i)
  · obtain ⟨q, hq, hpre⟩ := List.any_eq_true.mp hany
    obtain ⟨r, rfl⟩ := (pre_iff _ _).mp hpre
    exact ⟨p ++ r, hq, r, rfl⟩
  · rw [if_neg hany] at h
    exact absurd h (by simp)

/-! ## Lemmas for empty dictionary entries (C10) -/

theorem filter_ne_empty_append (A B : List (List String)) :
    (A ++ [] :: B).filter (fun i => !i.isEmpty) = (A ++ B).filter (fun i => !i.isEmpty) := by
  rw [List.filter_append, List.filter_append, List.filter_cons]
  simp

/-- The root children dict ignores empty phrases: only the (discarded) root
flag sees them. -/
theorem build_trie_ignores_empty (A B : List (List String)) :
    build_trie (A ++ [] :: B) = build_trie (A ++ B) := by
  unfold build_trie
  rw [trieNode_eq, trieNode_eq, filter_ne_empty_append]

theorem yld_snd_ne_nil (token : String) (tr : Tracker) (q : Nat × List String)
    (h : yld token tr = some q) : q.2 ≠ [] := by
  unfold yld at h
  rcases hf : findTok tr.2 token with _ | bt
  · rw [hf] at h
    simp at h
  · rw [hf] at h
    rcases bt with ⟨b, tr2⟩
    rcases b with _ | _
    · simp at h
    · simp only [Option.some_bind, if_true] at h
      intro hq
      rw [← Option.some.inj h] at hq
      simp at hq

theorem extractGo_snd_ne_nil (root : Children) (toks : List String) :
    ∀ (trackers : List Tracker) (start : Nat) (q : Nat × List String),
      q ∈ (extractGo root trackers start toks).1 → q.2 ≠ [] := by
  induction toks with
  | nil => intro trackers start q hq; simp [extractGo] at hq
  | cons t rest ih =>
      intro trackers start q hq
      show q.2 ≠ []
      have hq2 : q ∈ (stepAll t (trackers ++ [((start, []), root)])).2 ++
          (extractGo root (stepAll t (trackers ++ [((start, []), root)])).1 (start + 1) rest).1 := hq
      rcases List.mem_append.mp hq2 with h1 | h2
      · rw [stepAll_eq] at h1
        obtain ⟨tr, _, hy⟩ := List.mem_filterMap.mp h1
        exact yld_snd_ne_nil t tr q hy
      · exact ih _ _ q h2

/-! ## Claim theorems for the extractor -/

/-- Claim C1: for every compiled dictionary and finite token sequence,
`extract` yields exactly the occurrences of dictionary phrases as
contiguous token subsequences — `(i, p)` is yielded iff `p` is a
(nonempty) dictionary phrase and the tokens at positions
`i .. i + len p - 1` equal `p`, including overlapping and nested
occurrences; each occurrence is yielded at the step consuming its last
token, in ascending start-index order among occurrences ending at the same
position (the `extractSpec` normal form); and on dictionary
`{"dog", "hot dog", "hot"}` with tokens `["it","is","a","hot","dog"]` it
yields, in order, `(3, ["hot"])`, `(3, ["hot","dog"])`, `(4, ["dog"])`. -/
theorem claim_C1 (dictionary tokens : List String) :
    extract (conceptTrie dictionary) tokens = extractSpec (dictionary.map splitWs) tokens
    ∧ (∀ (i : Nat) (p : List String),
        (i, p) ∈ extract (conceptTrie dictionary) tokens ↔
          p ∈ dictionary.map splitWs ∧ p ≠ [] ∧ i + p.length ≤ tokens.length ∧
            (tokens.drop i).take p.length = p)
    ∧ extract (conceptTrie ["dog", "hot dog", "hot"]) ["it", "is", "a", "hot", "dog"]
        = [(3, ["hot"]), (3, ["hot", "dog"]), (4, ["dog"])] := by
  refine ⟨extract_eq_extractSpec _ tokens, ?_, by decide⟩
  intro i p
  show (i, p) ∈ extract (build_trie (dictionary.map splitWs)) tokens ↔ _
  rw [extract_eq_extractSpec, mem_extractSpec]

/-- Claim C9: at every step of `extract`, the live tracker list holds at
most `L` trackers, where `L` is the maximum token length of any dictionary
phrase, and all live trackers have pairwise distinct start indices. -/
theorem claim_C9 (dictionary tokens : List String) (j : Nat) :
    (trackersAfter (conceptTrie dictionary) (tokens.take j)).length
        ≤ maxPhraseLen (dictionary.map splitWs)
    ∧ ((trackersAfter (conceptTrie dictionary) (tokens.take j)).map
        (fun tr => tr.1.1)).Pairwise (· ≠ ·) := by
  have hroot : conceptTrie dictionary = build_trie (dictionary.map splitWs) := rfl
  rw [trackersAfter_eq_canon]
  have hpw : ((canon (conceptTrie dictionary) (tokens.take j)).map
      (fun tr => tr.1.1)).Pairwise (· < ·) := by
    rw [canon_starts]
    refine pairwise_lt_filterMap_self _ ?_ _ (List.pairwise_lt_range _)
    intro i x hx
    rcases hw : walkC (conceptTrie dictionary) ((tokens.take j).drop i) with _ | bc
    · rw [hw] at hx; simp at hx
    · rw [hw] at hx
      exact (Option.some.inj hx).symm
  refine ⟨?_, hpw.imp (fun hlt => Nat.ne_of_lt hlt)⟩
  have hnd : ((canon (conceptTrie dictionary) (tokens.take j)).map
      (fun tr => tr.1.1)).Nodup := hpw.imp (fun hlt => Nat.ne_of_lt hlt)
  have hwin : ∀ x ∈ (canon (conceptTrie dictionary) (tokens.take j)).map (fun tr => tr.1.1),
      (tokens.take j).length - maxPhraseLen (dictionary.map splitWs) ≤ x
        ∧ x < (tokens.take j).length := by
    intro x hx
    rw [canon_starts] at hx
    obtain ⟨i, hi, hf⟩ := List.mem_filterMap.mp hx
    have hilt : i < (tokens.take j).length := List.mem_range.mp hi
    rcases hw : walkC (conceptTrie dictionary) ((tokens.take j).drop i) with _ | bc
    · rw [hw] at hf; simp at hf
    · rw [hw] at hf
      have hxi : x = i := (Option.some.inj hf).symm
      subst hxi
      have hne : (tokens.take j).drop x ≠ [] := by
        intro hnil
        have := congrArg List.length hnil
        simp only [List.length_drop, List.length_nil] at this
        omega
      obtain ⟨q, hq, r, hqr⟩ := walkC_some_exists (dictionary.map splitWs) _ hne bc
        (by rw [← hroot]; exact hw)
      have h1 : ((tokens.take j).drop x).length ≤ q.length := by
        rw [hqr]
        simp
      have h2 : q.length ≤ maxPhraseLen (dictionary.map splitWs) :=
        le_foldr_max _ _ (List.mem_map_of_mem List.length hq)
      have h3 : ((tokens.take j).drop x).length = (tokens.take j).length - x := by
        rw [List.length_drop]
      omega
  have := length_le_of_nodup_window _ hnd _ _ hwin
  rw [List.length_map] at this
  refine le_trans this ?_
  omega

/-- Claim C10: a dictionary entry that tokenizes to zero tokens is silently
ignored — the trie built with it equals the trie built without it — and
`extract` never yields a pair whose matched token sequence is empty. -/
theorem claim_C10 :
    (∀ (d1 d2 : List String) (e : String), splitWs e = [] →
      conceptTrie (d1 ++ e :: d2) = conceptTrie (d1 ++ d2))
    ∧ ∀ (dictionary tokens : List String) (i : Nat),
        (i, ([] : List String)) ∉ extract (conceptTrie dictionary) tokens := by
  constructor
  · intro d1 d2 e he
    unfold conceptTrie
    rw [List.map_append, List.map_cons, he, List.map_append]
    exact build_trie_ignores_empty _ _
  · intro dictionary tokens i hmem
    exact extractGo_snd_ne_nil _ tokens [] 0 (i, []) hmem rfl

/-- Concrete instance of claim C10: a whitespace-only entry leaves the trie
unchanged. -/
theorem claim_C10_witness :
    conceptTrie ["hot dog", " ", "dog"] = conceptTrie ["hot dog", "dog"] :=
  claim_C10.1 ["hot dog"] ["dog"] " " (by decide)

/-! ## Concept codec (`haicor/knowledge/types.py`, `store.py`)

`CONCEPT_URI = re.compile(r"^/c/en/([^/]+)(?:/(\w))?(?:/(.+?))?/?$")` and
`Concept.__str__`.  The parser below is an operational embedding of
Python's backtracking regex semantics for this fixed pattern, including
`$` matching either at the end of the string or just before a final
newline, `.` not matching a newline, greedy `[^/]+`, and the non-greedy
`(.+?)`.
-/

/-- Python `Concept` dataclass: `text`, optional `speech`, optional
`suffix`. -/
structure Concept where
  text : String
  speech : Option String := none
  suffix : Option String := none
deriving DecidableEq, Repr

/-- Source `Concept.__str__`: `/c/en/<text>`, then `/<speech>` when `speech` is
truthy, then `/<suffix>` when `suffix` is truthy (Python truthiness: `None`
and the empty string are falsy). -/
def Concept.str (c : Concept) : String :=
  "/c/en/" ++ c.text
    ++ (match c.speech with
        | some s => if s = "" then "" else "/" ++ s
        | none => "")
    ++ (match c.suffix with
        | some s => if s = "" then "" else "/" ++ s
        | none => "")

/-- Python `\w` on the code points the repository's data uses (ASCII
word characters). -/
def isWordChar (c : Char) : Bool := c.isAlphanum || c = '_'

/-- The trailing `/?$` of `CONCEPT_URI` under Python semantics: `$`
matches at the end of the string or just before a terminal newline, and
the optional slash may be consumed before it. -/
def tailEnd : List Char → Bool
  | [] => true
  | [c] => c = '\n' || c = '/'
  | [c1, c2] => c1 = '/' && c2 = '\n'
  | _ => false

/-- The non-greedy `(.+?)` followed by `/?$`: the shortest nonempty
newline-free prefix whose remainder satisfies `/?$`. -/
def shortestSuffixMatch : List Char → Option (List Char)
  | [] => none
  | c :: rest =>
      if c = '\n' then none
      else if tailEnd rest then some [c]
      else (shortestSuffixMatch rest).map (fun p => c :: p)

/-- The optional group `(?:/(.+?))?` followed by `/?$`: the group is
preferred (the outer `?` is greedy); if it cannot match, the remainder must
satisfy `/?$` on its own. -/
def suffixSplit : List Char → Option (Option (List Char))
  | [] => some none
  | c :: rest =>
      if c = '/' then
        match shortestSuffixMatch rest with
        | some p => some (some p)
        | none => if tailEnd (c :: rest) then some none else none
      else if tailEnd (c :: rest) then some none else none

/-- The remainder of the pattern when the speech group is skipped: only
the suffix group and `/?$` apply. -/
def tailNoSpeech (r : List Char) : Option (Option Char × Option (List Char)) :=
  (suffixSplit r).map (fun sfx => ((none : Option Char), sfx))

/-- The optional speech group `(?:/(\w))?` followed by the suffix group and
`/?$`; the speech group is preferred, and is given back when the rest of
the pattern cannot complete. -/
def parseTail (r : List Char) : Option (Option Char × Option (List Char)) :=
  match r with
  | c0 :: c :: rest =>
      if c0 = '/' && isWordChar c then
        match suffixSplit rest with
        | some sfx => some (some c, sfx)
        | none => tailNoSpeech r
      else tailNoSpeech r
  | _ => tailNoSpeech r

/-- The literal prefix `^/c/en/` of `CONCEPT_URI`. -/
def stripConceptNs (l : List Char) : Option (List Char) :=
  if l.take 6 = "/c/en/".toList then some (l.drop 6) else none

/-- Python `re.match(CONCEPT_URI, s)` followed by `Concept(*match.group(1, 2, 3))`
as `populate` performs it: the literal prefix `/c/en/`, the greedy
`([^/]+)` (maximal, and complete: when the maximal run fails no shorter
run can succeed), then the optional groups. -/
def conceptParse (s : String) : Option Concept :=
  (stripConceptNs s.toList).bind (fun rem =>
    if rem.takeWhile (fun c => c ≠ '/') = [] then none
    else
      (parseTail (rem.dropWhile (fun c => c ≠ '/'))).map (fun g =>
        { text := String.mk (rem.takeWhile (fun c => c ≠ '/')),
          speech := g.1.map (fun ch => String.mk [ch]),
          suffix := g.2.map (fun p => String.mk p) }))

/-! ## Round-trip facts for the concept codec -/

theorem tailEnd_cases (l : List Char) (h : tailEnd l = true) :
    l = [] ∨ l = ['/'] ∨ l = ['\n'] ∨ l = ['/', '\n'] := by
  match l with
  | [] => exact Or.inl rfl
  | [c] =>
      simp only [tailEnd, Bool.or_eq_true, decide_eq_true_eq] at h
      rcases h with rfl | rfl
      · exact Or.inr (Or.inr (Or.inl rfl))
      · exact Or.inr (Or.inl rfl)
  | [c1, c2] =>
      simp only [tailEnd, Bool.and_eq_true, decide_eq_true_eq] at h
      obtain ⟨rfl, rfl⟩ := h
      exact Or.inr (Or.inr (Or.inr rfl))
  | c1 :: c2 :: c3 :: t =>
      simp [tailEnd] at h

theorem shortestSuffixMatch_spec (rs p : List Char)
    (h : shortestSuffixMatch rs = some p) :
    p ≠ [] ∧ ∃ leftover, rs = p ++ leftover ∧ tailEnd leftover = true := by
  induction rs generalizing p with
  | nil => simp [shortestSuffixMatch] at h
  | cons c rest ih =>
      unfold shortestSuffixMatch at h
      by_cases hnl : c = '\n'
      · rw [if_pos hnl] at h; simp at h
      · rw [if_neg hnl] at h
        by_cases hte : tailEnd rest
        · rw [if_pos hte] at h
          have hp : p = [c] := (Option.some.inj h).symm
          subst hp
          exact ⟨by simp, rest, rfl, hte⟩
        · rw [if_neg hte] at h
          rcases hs : shortestSuffixMatch rest with _ | p2
          · rw [hs] at h; simp at h
          · rw [hs] at h
            have hp : p = c :: p2 := (Option.some.inj h).symm
            subst hp
            obtain ⟨hne, leftover, hrest, hl⟩ := ih p2 hs
            exact ⟨by simp, leftover, by rw [hrest]; rfl, hl⟩

/-- Contribution of the speech group to the matched text. -/
def spPart : Option Char → List Char
  | some ch => ['/', ch]
  | none => []

/-- Contribution of the suffix group to the matched text. -/
def sfxPart : Option (List Char) → List Char
  | some p => '/' :: p
  | none => []

theorem suffixSplit_decomp (r : List Char) (sfx : Option (List Char))
    (h : suffixSplit r = some sfx) :
    ∃ leftover, tailEnd leftover = true ∧
      r = sfxPart sfx ++ leftover ∧
      ∀ p, sfx = some p → p ≠ [] := by
  match r with
  | [] =>
      have hsfx : sfx = none := (Option.some.inj h).symm
      subst hsfx
      exact ⟨[], rfl, rfl, by simp⟩
  | c :: rest =>
      simp only [suffixSplit] at h
      by_cases hc : c = '/'
      · rw [if_pos hc] at h
        subst hc
        rcases hs : shortestSuffixMatch rest with _ | p
        · rw [hs] at h
          by_cases hte : tailEnd ('/' :: rest)
          · rw [if_pos hte] at h
            have hsfx : sfx = none := (Option.some.inj h).symm
            subst hsfx
            exact ⟨'/' :: rest, hte, rfl, by simp⟩
          · rw [if_neg hte] at h; simp at h
        · rw [hs] at h
          have hsfx : sfx = some p := (Option.some.inj h).symm
          subst hsfx
          obtain ⟨hne, leftover, hrest, hl⟩ := shortestSuffixMatch_spec rest p hs
          exact ⟨leftover, hl, by rw [hrest]; rfl, fun q hq => by
            rw [← Option.some.inj hq]; exact hne⟩
      · rw [if_neg hc] at h
        by_cases hte : tailEnd (c :: rest)
        · rw [if_pos hte] at h
          have hsfx : sfx = none := (Option.some.inj h).symm
          subst hsfx
          exact ⟨c :: rest, hte, rfl, by simp⟩
        · rw [if_neg hte] at h; simp at h

theorem tailNoSpeech_spec (r : List Char) (sp : Option Char) (sfx : Option (List Char))
    (h : tailNoSpeech r = some (sp, sfx)) :
    sp = none ∧ ∃ leftover, tailEnd leftover = true ∧
      r = sfxPart sfx ++ leftover ∧
      ∀ p, sfx = some p → p ≠ [] := by
  unfold tailNoSpeech at h
  rcases hs : suffixSplit r with _ | sfx2
  · rw [hs] at h; simp at h
  · rw [hs] at h
    simp only [Option.map] at h
    have hp := Option.some.inj h
    rw [Prod.mk.injEq] at hp
    obtain ⟨h1, h2⟩ := hp
    subst h2
    refine ⟨h1.symm, ?_⟩
    exact suffixSplit_decomp _ _ hs

theorem parseTail_spec (r : List Char) (sp : Option Char) (sfx : Option (List Char))
    (h : parseTail r = some (sp, sfx)) :
    ∃ leftover, tailEnd leftover = true ∧
      r = spPart sp ++ sfxPart sfx ++ leftover ∧
      ∀ p, sfx = some p → p ≠ [] := by
  have hns : tailNoSpeech r = some (sp, sfx) →
      ∃ leftover, tailEnd leftover = true ∧
        r = spPart sp ++ sfxPart sfx ++ leftover ∧
        ∀ p, sfx = some p → p ≠ [] := by
    intro h2
    obtain ⟨hsp, leftover, hte, hdec, hne⟩ := tailNoSpeech_spec r sp sfx h2
    subst hsp
    exact ⟨leftover, hte, by rw [hdec]; rfl, hne⟩
  match r with
  | [] => exact hns h
  | [c0] => exact hns h
  | c0 :: c :: rest =>
      simp only [parseTail] at h
      by_cases hcond : c0 = '/' && isWordChar c
      · rw [if_pos hcond] at h
        have hc0 : c0 = '/' := by
          have h1 := hcond
          simp only [Bool.and_eq_true, decide_eq_true_eq] at h1
          exact h1.1
        subst hc0
        rcases hs : suffixSplit rest with _ | sfx2
        · rw [hs] at h
          exact hns h
        · rw [hs] at h
          have hp := Option.some.inj h
          rw [Prod.mk.injEq] at hp
          obtain ⟨h1, h2⟩ := hp
          subst h2
          subst h1
          obtain ⟨leftover, hte, hdec, hne⟩ := suffixSplit_decomp _ _ hs
          exact ⟨leftover, hte, by rw [hdec]; rfl, hne⟩
      · rw [if_neg hcond] at h
        exact hns h

theorem stripConceptNs_spec (l rem : List Char) (h : stripConceptNs l = some rem) :
    l = "/c/en/".toList ++ rem := by
  unfold stripConceptNs at h
  by_cases hp : l.take 6 = "/c/en/".toList
  · rw [if_pos hp] at h
    have hrem : rem = l.drop 6 := (Option.some.inj h).symm
    subst hrem
    conv_lhs => rw [← List.take_append_drop 6 l]
    rw [hp]
  · rw [if_neg hp] at h; simp at h

theorem mk_eq_empty_iff (l : List Char) : (String.mk l = "") ↔ l = [] := by
  constructor
  · intro h
    have := congrArg String.data h
    simpa using this
  · intro h; rw [h]

theorem getLast?_append_last {α : Type _} (a Y : List α) (ch : α)
    (h : Y.getLast? = some ch) : (a ++ Y).getLast? = some ch := by
  rw [List.getLast?_append, h]
  rfl

/-- Claim C2 (amended): for every URI string matched by the concept grammar
that does not end in a newline character, serializing the parsed `Concept`
yields the original URI or the original URI with exactly one trailing slash
removed.  (The unamended claim fails on URIs with a terminal newline, which
Python's `$` tolerates: see the counterexample.) -/
theorem claim_C2 (s : String) (c : Concept) (h : conceptParse s = some c)
    (hnl : s.toList.getLast? ≠ some '\n') :
    Concept.str c = s ∨ Concept.str c ++ "/" = s := by
  unfold conceptParse at h
  rcases hns : stripConceptNs s.toList with _ | rem
  · rw [hns] at h; simp at h
  · rw [hns] at h
    simp only [Option.some_bind] at h
    by_cases hg1 : rem.takeWhile (fun ch => ch ≠ '/') = []
    · rw [if_pos hg1] at h; simp at h
    · rw [if_neg hg1] at h
      rcases hpt : parseTail (rem.dropWhile (fun ch => ch ≠ '/')) with _ | ⟨sp, sfx⟩
      · rw [hpt] at h; simp at h
      · rw [hpt] at h
        simp only [Option.map] at h
        have hc : c = { text := String.mk (rem.takeWhile (fun ch => ch ≠ '/')),
                        speech := sp.map (fun ch => String.mk [ch]),
                        suffix := sfx.map (fun p => String.mk p) } := (Option.some.inj h).symm
        subst hc
        obtain ⟨leftover, hte, hdec, hnemp⟩ := parseTail_spec _ _ _ hpt
        have hsl : s.toList = "/c/en/".toList ++ rem.takeWhile (fun ch => ch ≠ '/')
            ++ spPart sp ++ sfxPart sfx ++ leftover := by
          rw [stripConceptNs_spec _ _ hns]
          conv_lhs => rw [← List.takeWhile_append_dropWhile (fun ch => ch ≠ '/') rem]
          rw [hdec]
          simp [List.append_assoc]
        have hsp : (match sp.map (fun ch => String.mk [ch]) with
            | some sv => if sv = "" then "" else "/" ++ sv
            | none => "").data = spPart sp := by
          rcases sp with _ | ch
          · rfl
          · show (if String.mk [ch] = "" then "" else "/" ++ String.mk [ch]).data = _
            rw [if_neg (by rw [mk_eq_empty_iff]; simp)]
            rfl
        have hsf : (match sfx.map (fun p => String.mk p) with
            | some sv => if sv = "" then "" else "/" ++ sv
            | none => "").data = sfxPart sfx := by
          rcases sfx with _ | p
          · rfl
          · show (if String.mk p = "" then "" else "/" ++ String.mk p).data = _
            rw [if_neg (by rw [mk_eq_empty_iff]; exact hnemp p rfl)]
            rfl
        have hstr : (Concept.str
            { text := String.mk (rem.takeWhile (fun ch => ch ≠ '/')),
              speech := sp.map (fun ch => String.mk [ch]),
              suffix := sfx.map (fun p => String.mk p) }).data
            = "/c/en/".toList ++ rem.takeWhile (fun ch => ch ≠ '/')
              ++ spPart sp ++ sfxPart sfx := by
          unfold Concept.str
          rw [String.data_append, String.data_append, String.data_append]
          rw [hsp, hsf]
          rfl
        rcases tailEnd_cases leftover hte with rfl | rfl | rfl | rfl
        · refine Or.inl (String.ext ?_)
          rw [hstr]
          have : s.data = s.toList := rfl
          rw [this, hsl, List.append_nil]
        · refine Or.inr (String.ext ?_)
          rw [String.data_append, hstr]
          have : s.data = s.toList := rfl
          rw [this, hsl]
        · exact absurd (by rw [hsl]; exact getLast?_append_last _ _ _ rfl) hnl
        · exact absurd (by rw [hsl]; exact getLast?_append_last _ _ _ rfl) hnl

/-- Claim C2 fails as stated: Python's `$` also matches just before a
terminal newline, so `/c/en/dog/\n` parses to `Concept("dog")`, whose
serialization `/c/en/dog` is neither the original URI nor the original URI
with one trailing slash removed. -/
theorem claim_C2_counterexample :
    conceptParse "/c/en/dog/\n" = some { text := "dog", speech := none, suffix := none }
    ∧ ¬(Concept.str { text := "dog", speech := none, suffix := none } = "/c/en/dog/\n"
        ∨ Concept.str { text := "dog", speech := none, suffix := none } ++ "/"
            = "/c/en/dog/\n") := by
  constructor
  · decide
  · decide

/-- Concrete instance of the amended claim C2 at `/c/en/dog/n/tail/`. -/
theorem claim_C2_witness :
    Concept.str { text := "dog", speech := some "n", suffix := some "tail" }
        = "/c/en/dog/n/tail/"
    ∨ Concept.str { text := "dog", speech := some "n", suffix := some "tail" } ++ "/"
        = "/c/en/dog/n/tail/" :=
  claim_C2 "/c/en/dog/n/tail/" { text := "dog", speech := some "n", suffix := some "tail" }
    (by decide) (by decide)

/-! ## Query builder (`ConceptNetStore.where_clause` and friends) -/

/-- Python values that flow through the query builder: `None`, integers,
strings, and tuples. -/
inductive PyVal : Type where
  | pNone : PyVal
  | pInt : Int → PyVal
  | pStr : String → PyVal
  | pTuple : List PyVal → PyVal

mutual

/-- Python `str`/`repr` of the values the query builder interpolates; a
tuple renders as its parenthesized comma-separated reprs, with the
trailing comma of one-element tuples. -/
def pyRepr : PyVal → String
  | .pNone => "None"
  | .pInt n => toString n
  | .pStr s => "\x27" ++ s ++ "\x27"
  | .pTuple vs =>
      "(" ++ String.intercalate ", " (pyReprList vs)
        ++ (if vs.length = 1 then ",)" else ")")

/-- Reprs of the elements of a tuple, in order. -/
def pyReprList : List PyVal → List String
  | [] => []
  | v :: vs => pyRepr v :: pyReprList vs

end

/-- Source `ConceptNetStore.in_clause`: `f"{field} IN {value}"` — the tuple is
string-interpolated into the SQL text. -/
def in_clause (field : String) (value : List PyVal) : String :=
  field ++ " IN " ++ pyRepr (.pTuple value)

/-- Source `ConceptNetStore.equal_clause`: a parameterized equality test. -/
def equal_clause (field : String) (value : PyVal) : String × PyVal :=
  (field ++ " == ?", value)

/-- Source `ConceptNetStore.where_clause` over the keyword arguments in order:
`None` predicates are skipped, tuples render via `in_clause`, anything else
via `equal_clause` with the value appended to the parameter list. -/
def where_clause (kwargs : List (String × PyVal)) : String × List PyVal :=
  let r := kwargs.foldl
    (fun (acc : List String × List PyVal) kv =>
      match kv.2 with
      | .pNone => acc
      | .pTuple vs => (acc.1 ++ [in_clause kv.1 vs], acc.2)
      | v => (acc.1 ++ [(equal_clause kv.1 v).1], acc.2 ++ [(equal_clause kv.1 v).2]))
    ([], [])
  (String.intercalate " AND " r.1, r.2)

/-- The clause a single predicate contributes, if any. -/
def renderPred (kv : String × PyVal) : Option String :=
  match kv.2 with
  | .pNone => none
  | .pTuple vs => some (in_clause kv.1 vs)
  | _ => some (kv.1 ++ " == ?")

/-- The bound parameter a single predicate contributes, if any. -/
def paramOf (kv : String × PyVal) : Option PyVal :=
  match kv.2 with
  | .pNone => none
  | .pTuple _ => none
  | v => some v

theorem where_clause_foldl (kwargs : List (String × PyVal)) :
    ∀ acc : List String × List PyVal,
      kwargs.foldl
        (fun (acc : List String × List PyVal) kv =>
          match kv.2 with
          | .pNone => acc
          | .pTuple vs => (acc.1 ++ [in_clause kv.1 vs], acc.2)
          | v => (acc.1 ++ [(equal_clause kv.1 v).1], acc.2 ++ [(equal_clause kv.1 v).2]))
        acc
      = (acc.1 ++ kwargs.filterMap renderPred, acc.2 ++ kwargs.filterMap paramOf) := by
  induction kwargs with
  | nil => intro acc; simp
  | cons kv rest ih =>
      intro acc
      rw [List.foldl_cons, List.filterMap_cons, List.filterMap_cons]
      rcases kv with ⟨f, v⟩
      rcases v with _ | n | s | vs
      · show rest.foldl _ acc = _
        rw [ih acc]
        rfl
      · show rest.foldl _ (acc.1 ++ [f ++ " == ?"], acc.2 ++ [.pInt n]) = _
        rw [ih]
        simp [renderPred, paramOf, equal_clause]
      · show rest.foldl _ (acc.1 ++ [f ++ " == ?"], acc.2 ++ [.pStr s]) = _
        rw [ih]
        simp [renderPred, paramOf, equal_clause]
      · show rest.foldl _ (acc.1 ++ [in_clause f vs], acc.2) = _
        rw [ih]
        simp [renderPred, paramOf]

/-- Closed form of `where_clause`: `None` predicates omitted, tuples as
set-membership tests, others as parameter-bound equality tests, joined
with AND. -/
theorem where_clause_eq (kwargs : List (String × PyVal)) :
    where_clause kwargs =
      (String.intercalate " AND " (kwargs.filterMap renderPred),
        kwargs.filterMap paramOf) := by
  unfold where_clause
  rw [where_clause_foldl kwargs ([], [])]
  rfl

/-- Lift of an optional Python string argument. -/
def optStr : Option String → PyVal
  | none => .pNone
  | some s => .pStr s

/-- Lift of an optional id sequence: `source and tuple(source)`. -/
def optTuple : Option (List Int) → PyVal
  | none => .pNone
  | some l => .pTuple (l.map PyVal.pInt)

/-- Source `ConceptNetStore.concept_clause`. -/
def concept_clause (text speech sfx3 : Option String) : String × List PyVal :=
  let wc := where_clause [("text", optStr text), ("speech", optStr speech),
    ("suffix", optStr sfx3)]
  ("SELECT id, text, speech, suffix FROM concepts"
      ++ (if wc.1 = "" then "" else " WHERE " ++ wc.1), wc.2)

/-- Source `ConceptNetStore.assertion_clause`: the join query over the three
tables with the composed WHERE clause. -/
def assertion_clause (type : Option String) (source target : Option (List Int)) :
    String × List PyVal :=
  let wc := where_clause [("relation", optStr type), ("source_id", optTuple source),
    ("target_id", optTuple target)]
  ("SELECT assertions.id, relations.type AS relation, weight,"
      ++ " cs.id AS source_id, cs.text, cs.speech, cs.suffix,"
      ++ " ct.id AS target_id, ct.text, ct.speech, ct.suffix"
      ++ " FROM assertions"
      ++ " JOIN concepts AS cs ON cs.id == assertions.source"
      ++ " JOIN concepts AS ct ON ct.id == assertions.target"
      ++ " JOIN relations ON relations.id == assertions.type"
      ++ (if wc.1 = "" then "" else " WHERE " ++ wc.1), wc.2)

/-- Claim C5: `where_clause` omits `None` predicates, renders a sequence
value as an `IN (...)` membership test, renders any other value as an
equality test bound as a parameter (the value never appears in the SQL
text), joins clauses with AND, and yields no WHERE clause when no
predicates remain; `where_clause(a=5, b=(1,2,3))` renders
`a == ? AND b IN (1, 2, 3)` with bound parameter `5`, and `where_clause()`
renders no clause. -/
theorem claim_C5 (kwargs : List (String × PyVal)) :
    where_clause kwargs =
      (String.intercalate " AND " (kwargs.filterMap renderPred),
        kwargs.filterMap paramOf)
    ∧ where_clause [("a", .pInt 5), ("b", .pTuple [.pInt 1, .pInt 2, .pInt 3])]
        = ("a == ? AND b IN (1, 2, 3)", [.pInt 5])
    ∧ where_clause [] = ("", [])
    ∧ concept_clause none none none
        = ("SELECT id, text, speech, suffix FROM concepts", []) := by
  refine ⟨where_clause_eq kwargs, by rfl, by rfl, by rfl⟩

/-- Claim C4 evidence: resolving a source `Concept` to a single identifier
renders the assertion query with the Python one-tuple repr `(1,)`, whose
trailing comma is not valid SQL list syntax, so the query fails instead of
returning the matching assertions; an empty identifier set renders `IN ()`
(an empty SQLite list, matching no row), and a two-element set renders
normally. -/
theorem claim_C4 :
    assertion_clause none (some [1]) none
      = ("SELECT assertions.id, relations.type AS relation, weight,"
          ++ " cs.id AS source_id, cs.text, cs.speech, cs.suffix,"
          ++ " ct.id AS target_id, ct.text, ct.speech, ct.suffix"
          ++ " FROM assertions"
          ++ " JOIN concepts AS cs ON cs.id == assertions.source"
          ++ " JOIN concepts AS ct ON ct.id == assertions.target"
          ++ " JOIN relations ON relations.id == assertions.type"
          ++ " WHERE source_id IN (1,)", [])
    ∧ assertion_clause none (some []) none
      = ("SELECT assertions.id, relations.type AS relation, weight,"
          ++ " cs.id AS source_id, cs.text, cs.speech, cs.suffix,"
          ++ " ct.id AS target_id, ct.text, ct.speech, ct.suffix"
          ++ " FROM assertions"
          ++ " JOIN concepts AS cs ON cs.id == assertions.source"
          ++ " JOIN concepts AS ct ON ct.id == assertions.target"
          ++ " JOIN relations ON relations.id == assertions.type"
          ++ " WHERE source_id IN ()", [])
    ∧ assertion_clause none (some [1, 2]) none
      = ("SELECT assertions.id, relations.type AS relation, weight,"
          ++ " cs.id AS source_id, cs.text, cs.speech, cs.suffix,"
          ++ " ct.id AS target_id, ct.text, ct.speech, ct.suffix"
          ++ " FROM assertions"
          ++ " JOIN concepts AS cs ON cs.id == assertions.source"
          ++ " JOIN concepts AS ct ON ct.id == assertions.target"
          ++ " JOIN relations ON relations.id == assertions.type"
          ++ " WHERE source_id IN (1, 2)", []) := by
  refine ⟨by rfl, by rfl, by rfl⟩

/-! ## The `Assertion` dataclass (`types.py`) -/

/-- Python error classes raised on the store paths we model.  The spec's
`NotFoundError` is the `RuntimeError` that `is_directed` raises, and its
`ConstraintError` is sqlite's `IntegrityError`. -/
inductive PyErr : Type where
  | typeError
  | keyError
  | runtimeError
  | runtimeWarning
  | integrityError
deriving DecidableEq, Repr

/-- Field list of the frozen dataclass `Assertion` in `types.py`: `type`,
`source`, `target` — and no `weight` field. -/
def assertionFields : List String := ["type", "source", "target"]

/-- Positional-call semantics of a Python dataclass-generated `__init__`:
the call raises `TypeError` unless exactly one argument per field is
supplied. -/
def dataclassInit {α : Type _} (fields : List String) (args : List α) :
    Except PyErr (List α) :=
  if args.length = fields.length then .ok args else .error .typeError

/-- The kinds of argument `populate` and `get_assertions` pass to
`Assertion(...)`: a relation name, a `Concept`, or a numeric weight. -/
inductive AssertionArg : Type where
  | aType : String → AssertionArg
  | aConcept : Concept → AssertionArg
  | aWeight : Rat → AssertionArg

/-- Source `Assertion.__str__`: `/a/[<type>/,<source>/,<target>/]` (it reads only
the three declared fields). -/
def assertionStr (ty : String) (src tgt : Concept) : String :=
  "/a/[" ++ ty ++ "/," ++ Concept.str src ++ "/," ++ Concept.str tgt ++ "/]"

/-! ## Relational store state (`ConceptNetStore`)

Rows mirror the three tables of `CREATE_SQL`.  A connection holds the
durable (committed) database and the current in-transaction database;
`commit` publishes the current state.  Inserts enforce the declared
UNIQUE constraints (sqlite leaves foreign keys unenforced by default).
-/

/-- Table contents: `concepts (id, text, speech, suffix)`,
`relations (id, type, direct)`, `assertions (id, type, source, target,
weight)`. -/
structure DB where
  concepts : List (Nat × String × Option String × Option String)
  relations : List (Nat × String × Int)
  assertions : List (Nat × Nat × Nat × Nat × Rat)
deriving DecidableEq, Repr

/-- A connection: committed state plus the in-transaction state. -/
structure Conn where
  durable : DB
  current : DB
deriving DecidableEq, Repr

def emptyDB : DB := { concepts := [], relations := [], assertions := [] }

/-- A freshly created store (`create` with empty tables). -/
def freshConn : Conn := { durable := emptyDB, current := emptyDB }

/-- Insert into `concepts`, honouring the primary key and
`UNIQUE(text, speech, suffix)`. -/
def insertConcept (db : DB) (row : Nat × String × Option String × Option String) :
    Except PyErr DB :=
  if db.concepts.any (fun r => r.1 = row.1 || r.2 = row.2)
  then .error .integrityError
  else .ok { db with concepts := db.concepts ++ [row] }

/-- Insert into `relations`, honouring the primary key and `UNIQUE(type)`. -/
def insertRelation (db : DB) (row : Nat × String × Int) : Except PyErr DB :=
  if db.relations.any (fun r => r.1 = row.1 || r.2.1 = row.2.1)
  then .error .integrityError
  else .ok { db with relations := db.relations ++ [row] }

/-- Insert into `assertions`, honouring the primary key and
`UNIQUE(type, source, target)`. -/
def insertAssertion (db : DB) (row : Nat × Nat × Nat × Nat × Rat) : Except PyErr DB :=
  if db.assertions.any (fun r => r.1 = row.1 || r.2.1 = row.2.1 ∧ r.2.2.1 = row.2.2.1
      ∧ r.2.2.2.1 = row.2.2.2.1)
  then .error .integrityError
  else .ok { db with assertions := db.assertions ++ [row] }

/-- Python `executemany`: insert row by row, stopping at the first constraint
violation with the rows inserted so far kept in the transaction. -/
def insertManyP {ρ : Type _} (ins : DB → ρ → Except PyErr DB) :
    DB → List ρ → DB × Option PyErr
  | db, [] => (db, none)
  | db, r :: rest =>
      match ins db r with
      | .error e => (db, some e)
      | .ok db2 => insertManyP ins db2 rest

/-- Update-or-append semantics of Python dict assignment: an existing key
keeps its position and takes the new value. -/
def dictInsert {β : Type _} (m : List (String × β)) (k : String) (v : β) :
    List (String × β) :=
  if m.any (fun p => p.1 = k) then m.map (fun p => if p.1 = k then (k, v) else p)
  else m ++ [(k, v)]

/-- A Python dict built from key-value pairs in order (later assignments to
the same key win). -/
def dictOf {β : Type _} (rows : List (String × β)) : List (String × β) :=
  rows.foldl (fun m kv => dictInsert m kv.1 kv.2) []

/-- Dict lookup. -/
def lookupD {β : Type _} (m : List (String × β)) (k : String) : Option β :=
  (m.find? (fun p => p.1 = k)).map (fun p => p.2)

/-! ## Population pipeline (`ConceptNetStore.populate`) -/

/-- One row of the tab-separated assertion source:
`uri, relation, source_uri, target_uri, info_json`.  Only
`json.loads(info)["weight"]` is ever read from the JSON blob, so the blob
is embedded as its optional numeric `weight` field (`none` models a blob
without a `weight` key, whose subscript raises `KeyError`). -/
structure AssertRow where
  uri : String
  relation : String
  source : String
  target : String
  info : Option Rat
deriving DecidableEq, Repr

/-- The namespace filter of `populate`:
`source[:6] == target[:6] == "/c/en/"` (a chained comparison). -/
def nsKeep (r : AssertRow) : Bool :=
  r.source.take 6 = r.target.take 6 && r.target.take 6 = "/c/en/"

/-- The deduplicating dict `{uri: (type, source, target, info), ...}`
built from the namespace-filtered rows. -/
def assertDict (af : List AssertRow) :
    List (String × String × String × String × Option Rat) :=
  dictOf ((af.filter nsKeep).map (fun r => (r.uri, (r.relation, r.source, r.target, r.info))))

/-- Python `enumerate(..., start=1)`. -/
def enumFrom1 {β : Type _} (l : List β) : List (Nat × β) := List.enumFrom 1 l

/-- The distinct concept URIs referenced by the filtered assertions
(`set(...)`; Python's set iteration order is implementation-defined and,
per the spec, not observable — identifiers only need injectivity and
1..N contiguity — so the embedding fixes first-occurrence order). -/
def conceptUris (af : List AssertRow) : List String :=
  ((assertDict af).flatMap (fun kv => [kv.2.2.1, kv.2.2.2.1])).eraseDups

/-- The concept loop of `populate`: parse each URI (a failure raises
`RuntimeError`), optionally verify the round trip
(`str(concept) != uri and str(concept) != uri[:-1]` raises
`RuntimeWarning`), and build `concept_mapping`. -/
def buildConceptMapping (verify : Bool) :
    List (Nat × String) → Except PyErr (List (String × Nat × Concept))
  | [] => .ok []
  | (id, uri) :: rest =>
      match conceptParse uri with
      | none => .error .runtimeError
      | some c =>
          if verify && !(Concept.str c = uri || Concept.str c = uri.dropRight 1)
          then .error .runtimeWarning
          else (buildConceptMapping verify rest).map (fun m => (uri, id, c) :: m)

/-- The assertion loop of `populate`: resolve the relation
(`relation_mapping[relation[3:]]`) and the two concepts, extract the JSON
`weight`, construct the `Assertion` value with four positional arguments
(which the three-field dataclass rejects with `TypeError`), insert the
row, and verify the assertion round trip. -/
def assertLoop (rmapping : List (String × Nat × Bool))
    (cmapping : List (String × Nat × Concept)) (verify : Bool) :
    DB → List (Nat × String × String × String × String × Option Rat) →
      DB × Option PyErr
  | db, [] => (db, none)
  | db, (id, uri, rel, src, tgt, info) :: rest =>
      match lookupD rmapping (rel.drop 3) with
      | none => (db, some .keyError)
      | some tid =>
          match lookupD cmapping src with
          | none => (db, some .keyError)
          | some sid =>
              match lookupD cmapping tgt with
              | none => (db, some .keyError)
              | some tgtid =>
                  match info with
                  | none => (db, some .keyError)
                  | some weight =>
                      match dataclassInit assertionFields
                          [AssertionArg.aType (rel.drop 3),
                            AssertionArg.aConcept sid.2,
                            AssertionArg.aConcept tgtid.2,
                            AssertionArg.aWeight weight] with
                      | .error e => (db, some e)
                      | .ok _ =>
                          match insertAssertion db (id, tid.1, sid.1, tgtid.1, weight) with
                          | .error e => (db, some e)
                          | .ok db2 =>
                              if verify
                                  && !(assertionStr (rel.drop 3) sid.2 tgtid.2 = uri)
                              then (db2, some .runtimeWarning)
                              else assertLoop rmapping cmapping verify db2 rest

/-- Rows inserted into `relations`: ids from `enumerate(..., start=1)` over
the relation dict, the direction stored as sqlite's integer image of the
Python bool. -/
def relRows (rf : List (String × String)) : List (Nat × String × Int) :=
  (enumFrom1 ((dictOf rf).map (fun p => (p.1, decide (p.2 = "directed"))))).map
    (fun e => (e.1, e.2.1, if e.2.2 then (1 : Int) else 0))

/-- Source `relation_mapping`: name to `(id, directed)`. -/
def relMapping (rf : List (String × String)) : List (String × Nat × Bool) :=
  (enumFrom1 ((dictOf rf).map (fun p => (p.1, decide (p.2 = "directed"))))).map
    (fun e => (e.2.1, e.1, e.2.2))

/-- Source `ConceptNetStore.populate(assertions, relations, verify)`: filter and
dedupe the source rows, parse and number the referenced concepts, bulk
insert concepts then relations, run the assertion loop, and only then
commit; any failure leaves the durable state untouched. -/
def populate (conn : Conn) (af : List AssertRow) (rf : List (String × String))
    (verify : Bool) : Conn × Option PyErr :=
  match buildConceptMapping verify (enumFrom1 (conceptUris af)) with
  | .error e => (conn, some e)
  | .ok cmap =>
      match insertManyP insertConcept conn.current
          (cmap.map (fun e => (e.2.1, e.2.2.text, e.2.2.speech, e.2.2.suffix))) with
      | (db1, some e) => ({ conn with current := db1 }, some e)
      | (db1, none) =>
          match insertManyP insertRelation db1 (relRows rf) with
          | (db2, some e) => ({ conn with current := db2 }, some e)
          | (db2, none) =>
              match assertLoop (relMapping rf) cmap verify db2
                  ((enumFrom1 (assertDict af)).map
                    (fun e => (e.1, e.2.1, e.2.2.1, e.2.2.2.1, e.2.2.2.2.1, e.2.2.2.2.2))) with
              | (db3, some e) => ({ conn with current := db3 }, some e)
              | (db3, none) => ({ durable := db3, current := db3 }, none)

/-- Source `ConceptNetStore.is_directed(type)`: a missing relation row raises
`RuntimeError` (the spec's `NotFoundError`); otherwise `result[2] == 1`. -/
def is_directed (db : DB) (t : String) : Except PyErr Bool :=
  match db.relations.find? (fun r => r.2.1 = t) with
  | none => .error .runtimeError
  | some r => .ok (r.2.2 = 1)

/-- Claim C3 evidence: the `Assertion` dataclass declares only `type`,
`source` and `target`, so the four-argument constructions performed by
population step 5 and by `get_assertions` raise `TypeError` for every
relation name, pair of `Concept`s and weight, instead of succeeding. -/
theorem claim_C3 (t : String) (src tgt : Concept) (w : Rat) :
    dataclassInit assertionFields
      [AssertionArg.aType t, AssertionArg.aConcept src,
        AssertionArg.aConcept tgt, AssertionArg.aWeight w]
      = .error .typeError := rfl

/-! ## All-or-nothing population (C6) -/

/-- Every run of `populate` either succeeds or leaves the committed state
untouched: the single commit is the last step. -/
theorem populate_durable (conn : Conn) (af : List AssertRow)
    (rf : List (String × String)) (verify : Bool) :
    (populate conn af rf verify).2 = none
      ∨ (populate conn af rf verify).1.durable = conn.durable := by
  unfold populate
  split
  · right; rfl
  · split
    · right; rfl
    · split
      · right; rfl
      · split
        · right; rfl
        · left; rfl

/-- Claim C6: population is all-or-nothing — for every `populate` run that
raises an error before its single final commit, the store's durable state
is unchanged from before the call, so no row inserted by that run becomes
visible to subsequent reads of the committed state. -/
theorem claim_C6 (conn : Conn) (af : List AssertRow) (rf : List (String × String))
    (verify : Bool) (h : (populate conn af rf verify).2.isSome) :
    (populate conn af rf verify).1.durable = conn.durable := by
  rcases populate_durable conn af rf verify with h1 | h2
  · rw [h1] at h; simp at h
  · exact h2

/-- The single in-namespace assertion row used by the concrete store
examples. -/
def exampleRow : AssertRow :=
  { uri := "/a/[/r/IsA/,/c/en/dog/,/c/en/animal/]", relation := "/r/IsA",
    source := "/c/en/dog", target := "/c/en/animal", info := some 1 }

/-- The relation-direction table used by the concrete store examples. -/
def exampleRf : List (String × String) :=
  [("IsA", "directed"), ("RelatedTo", "undirected")]

/-- Concrete instance of claim C6: a failing populate run (here the
`TypeError` from the four-argument `Assertion` construction) leaves the
durable state untouched. -/
theorem claim_C6_witness :
    (populate freshConn [exampleRow] exampleRf true).1.durable = freshConn.durable :=
  claim_C6 freshConn [exampleRow] exampleRf true (by decide)

/-- Claim C7 evidence: the single source row passes the namespace filter
(both URIs under `/c/en/`), yet population of a fresh store aborts with the
`TypeError` from the four-argument `Assertion` construction, so the row is
never durably retained: after the run the committed assertions table is
empty, not the claimed one-row table. -/
theorem claim_C7 :
    nsKeep exampleRow = true
    ∧ (populate freshConn [exampleRow] exampleRf true).2 = some PyErr.typeError
    ∧ (populate freshConn [exampleRow] exampleRf true).1.durable.assertions = [] := by
  refine ⟨by decide, by decide, by decide⟩

/-! ## Relation lookups after a successful population (C8) -/

theorem dictInsert_keys {β : Type _} (m : List (String × β)) (k : String) (v : β) :
    (dictInsert m k v).map (fun p => p.1)
      = if m.any (fun p => p.1 = k) then m.map (fun p => p.1)
        else m.map (fun p => p.1) ++ [k] := by
  unfold dictInsert
  by_cases hk : m.any (fun p => p.1 = k)
  · rw [if_pos hk, if_pos hk, List.map_map]
    refine List.map_congr_left ?_
    intro p _
    by_cases hp : p.1 = k
    · simp [hp]
    · simp [hp]
  · rw [if_neg hk, if_neg hk]
    simp

theorem dictOf_keys_nodup {β : Type _} (rows : List (String × β)) :
    ((dictOf rows).map (fun p => p.1)).Nodup := by
  suffices h : ∀ (rows : List (String × β)) (m : List (String × β)),
      (m.map (fun p => p.1)).Nodup →
      ((rows.foldl (fun m kv => dictInsert m kv.1 kv.2) m).map (fun p => p.1)).Nodup by
    exact h rows [] (by simp)
  intro rows
  induction rows with
  | nil => intro m hm; exact hm
  | cons kv rest ih =>
      intro m hm
      rw [List.foldl_cons]
      refine ih _ ?_
      rw [dictInsert_keys]
      by_cases hk : m.any (fun p => p.1 = kv.1)
      · rw [if_pos hk]; exact hm
      · rw [if_neg hk]
        rw [List.nodup_append]
        refine ⟨hm, List.nodup_singleton _, ?_⟩
        intro x hx hx2
        rw [List.mem_singleton] at hx2
        subst hx2
        obtain ⟨p, hp, hpx⟩ := List.mem_map.mp hx
        rw [Bool.not_eq_true, List.any_eq_false] at hk
        have hpk := hk p hp
        simp only [decide_eq_true_eq] at hpk
        exact hpk hpx

theorem insertManyP_concept_relations (rows : List (Nat × String × Option String × Option String)) :
    ∀ db : DB, (insertManyP insertConcept db rows).1.relations = db.relations := by
  induction rows with
  | nil => intro db; rfl
  | cons r rest ih =>
      intro db
      show (match insertConcept db r with
        | .error e => (db, some e)
        | .ok db2 => insertManyP insertConcept db2 rest).1.relations = db.relations
      unfold insertConcept
      by_cases hc : db.concepts.any (fun q => q.1 = r.1 || q.2 = r.2)
      · rw [if_pos hc]
      · rw [if_neg hc]
        show (insertManyP insertConcept { db with concepts := db.concepts ++ [r] } rest).1.relations
          = db.relations
        rw [ih]

theorem insertRel_go (rows : List (Nat × String × Int)) :
    ∀ db : DB,
      (∀ r ∈ rows, ∀ q ∈ db.relations, ¬(q.1 = r.1 ∨ q.2.1 = r.2.1)) →
      (rows.map (fun r => r.1)).Nodup → (rows.map (fun r => r.2.1)).Nodup →
      insertManyP insertRelation db rows
        = ({ db with relations := db.relations ++ rows }, none) := by
  induction rows with
  | nil =>
      intro db _ _ _
      show (db, none) = _
      rw [List.append_nil]
  | cons r rest ih =>
      intro db hdisj hids hnames
      show (match insertRelation db r with
        | .error e => (db, some e)
        | .ok db2 => insertManyP insertRelation db2 rest) = _
      unfold insertRelation
      rw [if_neg ?hany]
      case hany =>
        intro hc
        obtain ⟨q, hq, hqr⟩ := List.any_eq_true.mp hc
        refine hdisj r (List.mem_cons_self _ _) q hq ?_
        simpa using hqr
      show insertManyP insertRelation { db with relations := db.relations ++ [r] } rest = _
      simp only [List.map_cons, List.nodup_cons] at hids hnames
      have hd : ∀ r2 ∈ rest, ∀ q ∈ ({ db with relations := db.relations ++ [r] } : DB).relations,
          ¬(q.1 = r2.1 ∨ q.2.1 = r2.2.1) := by
        intro r2 hr2 q hq
        rcases List.mem_append.mp hq with hq1 | hq2
        · exact hdisj r2 (List.mem_cons_of_mem _ hr2) q hq1
        · rw [List.mem_singleton] at hq2
          subst hq2
          rintro (h1 | h2)
          · exact hids.1 (h1 ▸ List.mem_map_of_mem (fun r => r.1) hr2)
          · exact hnames.1 (h2 ▸ List.mem_map_of_mem (fun r => r.2.1) hr2)
      rw [ih { db with relations := db.relations ++ [r] } hd hids.2 hnames.2]
      have hassoc : (db.relations ++ [r]) ++ rest = db.relations ++ r :: rest := by
        rw [List.append_assoc]
        rfl
      show (({ db with relations := (db.relations ++ [r]) ++ rest } : DB), (none : Option PyErr)) = _
      rw [hassoc]

theorem relRows_ids_nodup (rf : List (String × String)) :
    ((relRows rf).map (fun r => r.1)).Nodup := by
  unfold relRows enumFrom1
  rw [List.map_map]
  have : ((fun r => r.1) ∘ fun (e : Nat × String × Bool) =>
      (e.1, e.2.1, if e.2.2 then (1 : Int) else 0)) = Prod.fst := by
    funext e; rfl
  rw [this, List.enumFrom_map_fst]
  exact List.nodup_range' _ _

theorem relRows_names_nodup (rf : List (String × String)) :
    ((relRows rf).map (fun r => r.2.1)).Nodup := by
  unfold relRows
  rw [List.map_map]
  unfold enumFrom1
  have h1 : (((fun r => r.2.1) ∘ fun (e : Nat × String × Bool) =>
      (e.1, e.2.1, if e.2.2 then (1 : Int) else 0)))
      = (fun p => p.1) ∘ (Prod.snd : Nat × String × Bool → String × Bool) := by
    funext e; rfl
  rw [h1, ← List.map_map, List.enumFrom_map_snd, List.map_map]
  have h2 : ((fun (p : String × Bool) => p.1) ∘ fun (p : String × String) =>
      (p.1, decide (p.2 = "directed"))) = fun (p : String × String) => p.1 := by
    funext p; rfl
  rw [h2]
  exact dictOf_keys_nodup rf

theorem find?_map_key {β γ : Type _} (key : β → String) (f : β → γ) (keyg : γ → String)
    (hf : ∀ b, keyg (f b) = key b) (l : List β) (t : String) :
    (l.map f).find? (fun x => keyg x = t) = (l.find? (fun b => key b = t)).map f := by
  induction l with
  | nil => rfl
  | cons b rest ih =>
      simp only [List.map_cons, List.find?_cons]
      by_cases hb : key b = t
      · have h1 : (decide (keyg (f b) = t)) = true := by rw [hf b]; exact decide_eq_true hb
        have h2 : (decide (key b = t)) = true := decide_eq_true hb
        rw [h1, h2]
        rfl
      · have h1 : (decide (keyg (f b) = t)) = false := by
          rw [hf b]; simpa using hb
        have h2 : (decide (key b = t)) = false := by simpa using hb
        rw [h1, h2]
        exact ih

theorem find?_enumFrom_snd {β : Type _} (p : β → Bool) (l : List β) :
    ∀ n, ((List.enumFrom n l).find? (fun e => p e.2)).map Prod.snd = l.find? p := by
  induction l with
  | nil => intro n; rfl
  | cons b rest ih =>
      intro n
      show (((n, b) :: List.enumFrom (n + 1) rest).find? (fun e => p e.2)).map Prod.snd = _
      simp only [List.find?_cons]
      rcases hb : p b with _ | _
      · exact ih (n + 1)
      · rfl

theorem find?_relRowsM (m : List (String × String)) (t : String) : ∀ n : Nat,
    ((((List.enumFrom n (m.map (fun p => (p.1, decide (p.2 = "directed"))))).map
        (fun e => (e.1, e.2.1, if e.2.2 then (1 : Int) else 0))).find?
          (fun r => r.2.1 = t)).map (fun r => r.2.2))
      = (m.find? (fun p => p.1 = t)).map
          (fun p => if p.2 = "directed" then (1 : Int) else 0) := by
  induction m with
  | nil => intro n; rfl
  | cons p rest ih =>
      intro n
      simp only [List.map_cons, List.enumFrom_cons, List.find?_cons]
      by_cases hp : p.1 = t
      · have hd : (decide (p.1 = t)) = true := decide_eq_true hp
        rw [hd]
        by_cases hdir : p.2 = "directed"
        · simp [hdir]
        · simp [hdir]
      · have hd : (decide (p.1 = t)) = false := by simpa using hp
        rw [hd]
        exact ih (n + 1)

/-- What `is_directed` sees in the relations rows of a successful
population: the direction column of the row found by name is the integer
image of the relation-direction table entry. -/
theorem find?_relRows_eq (rf : List (String × String)) (t : String) :
    ((relRows rf).find? (fun r => r.2.1 = t)).map (fun r => r.2.2)
      = ((dictOf rf).find? (fun p => p.1 = t)).map
          (fun p => if p.2 = "directed" then (1 : Int) else 0) := by
  unfold relRows enumFrom1
  exact find?_relRowsM (dictOf rf) t 1

/-- The assertion loop cannot complete an iteration: every path through
the body stops with an error (at the latest, the `TypeError` from the
four-argument `Assertion` construction). -/
theorem assertLoop_cons_stops (rm : List (String × Nat × Bool))
    (cm : List (String × Nat × Concept)) (verify : Bool) (db : DB)
    (row : Nat × String × String × String × String × Option Rat)
    (rest : List (Nat × String × String × String × String × Option Rat)) :
    (assertLoop rm cm verify db (row :: rest)).2.isSome = true := by
  obtain ⟨id, uri, rel, src, tgt, info⟩ := row
  unfold assertLoop
  rcases lookupD rm (rel.drop 3) with _ | tid
  · rfl
  · rcases lookupD cm src with _ | sid
    · rfl
    · rcases lookupD cm tgt with _ | tgtid
      · rfl
      · rcases info with _ | w
        · rfl
        · rfl

/-- Claim C8: after every successful population of a fresh store, a
relation type present in the relation-direction table answers
`is_directed` with exactly its "directed" marking, and an unknown type
(such as `"NotARealRelation"`) fails with the not-found `RuntimeError`
instead of returning a value. -/
theorem claim_C8 (af : List AssertRow) (rf : List (String × String)) (verify : Bool)
    (conn2 : Conn) (h : populate freshConn af rf verify = (conn2, none)) :
    (∀ t d, lookupD (dictOf rf) t = some d →
        is_directed conn2.current t = .ok (d = "directed"))
    ∧ ∀ t, lookupD (dictOf rf) t = none →
        is_directed conn2.current t = .error .runtimeError := by
  have hrel : conn2.current.relations = relRows rf := by
    unfold populate at h
    split at h
    · simp at h
    · split at h
      · simp at h
      · split at h
        · simp at h
        · split at h
          · simp at h
          · rename_i x1 cmap heqc x2 db1 heq1 x3 db2 heq2 x4 db3 heq3
            rw [Prod.mk.injEq] at h
            have hconn : conn2 = { durable := db3, current := db3 } := h.1.symm
            subst hconn
            have hdb1rel : db1.relations = [] := by
              have hfst : (insertManyP insertConcept freshConn.current
                  (cmap.map (fun e => (e.2.1, e.2.2.text, e.2.2.speech, e.2.2.suffix)))).1
                  = db1 := congrArg Prod.fst heq1
              rw [← hfst, insertManyP_concept_relations]
              rfl
            have hins2 : insertManyP insertRelation db1 (relRows rf)
                = ({ db1 with relations := db1.relations ++ relRows rf }, none) := by
              refine insertRel_go (relRows rf) db1 ?_ (relRows_ids_nodup rf)
                (relRows_names_nodup rf)
              intro r _ q hq
              rw [hdb1rel] at hq
              simp at hq
            rw [hins2] at heq2
            rw [Prod.mk.injEq] at heq2
            have hdb2 : db2 = { db1 with relations := db1.relations ++ relRows rf } :=
              heq2.1.symm
            subst hdb2
            rcases hrows : (enumFrom1 (assertDict af)).map
                (fun e => (e.1, e.2.1, e.2.2.1, e.2.2.2.1, e.2.2.2.2.1, e.2.2.2.2.2)) with
              _ | ⟨row, rest⟩
            · rw [hrows] at heq3
              have hdb3 : db3 = { db1 with relations := db1.relations ++ relRows rf } := by
                have := congrArg Prod.fst heq3
                exact this.symm
              subst hdb3
              show db1.relations ++ relRows rf = relRows rf
              rw [hdb1rel]
              rfl
            · rw [hrows] at heq3
              have hstop := assertLoop_cons_stops (relMapping rf) cmap verify
                { db1 with relations := db1.relations ++ relRows rf } row rest
              rw [heq3] at hstop
              simp at hstop
  constructor
  · intro t d hld
    unfold lookupD at hld
    rcases hf : (dictOf rf).find? (fun p => p.1 = t) with _ | pe
    · rw [hf] at hld; simp at hld
    · rw [hf] at hld
      simp only [Option.map] at hld
      have hd : pe.2 = d := Option.some.inj hld
      have hmap := find?_relRows_eq rf t
      rw [hf] at hmap
      simp only [Option.map] at hmap
      unfold is_directed
      rw [hrel]
      rcases hfr : (relRows rf).find? (fun r => r.2.1 = t) with _ | r
      · rw [hfr] at hmap; simp at hmap
      · rw [hfr] at hmap
        rw [hfr]
        simp only [Option.map] at hmap
        have hr : r.2.2 = if pe.2 = "directed" then (1 : Int) else 0 :=
          Option.some.inj hmap
        rw [← hd]
        show Except.ok (decide (r.2.2 = 1)) = Except.ok (decide (pe.2 = "directed"))
        by_cases hdir : pe.2 = "directed"
        · rw [hr, if_pos hdir]
          simp [hdir]
        · rw [hr, if_neg hdir]
          simp [hdir]
  · intro t hld
    unfold lookupD at hld
    rcases hf : (dictOf rf).find? (fun p => p.1 = t) with _ | pe
    · have hmap := find?_relRows_eq rf t
      rw [hf] at hmap
      simp only [Option.map] at hmap
      unfold is_directed
      rw [hrel]
      rcases hfr : (relRows rf).find? (fun r => r.2.1 = t) with _ | r
      · rw [hfr]
      · rw [hfr] at hmap; simp at hmap
    · rw [hf] at hld; simp [Option.map] at hld

/-- Concrete instance of claim C8: populating a fresh store with relations
`IsA` (directed) and `RelatedTo` (undirected) makes `is_directed` answer
`true` for `IsA`, and `is_directed "NotARealRelation"` fail with the
not-found error. -/
theorem claim_C8_witness :
    is_directed (populate freshConn [] exampleRf true).1.current "IsA" = .ok true
    ∧ is_directed (populate freshConn [] exampleRf true).1.current "NotARealRelation"
        = .error .runtimeError := by
  have h := claim_C8 [] exampleRf true (populate freshConn [] exampleRf true).1 (by decide)
  constructor
  · have h1 := h.1 "IsA" "directed" (by decide)
    simpa using h1
  · exact h.2 "NotARealRelation" (by decide)

end Haicor
